import Mathlib

/-!
Verification development for the ver4 patricia-trie dictionary policy
(`Ver4PatriciaTriePolicy`).  The repository ships only the interface header
`ver4_patricia_trie_policy.h`; the member-function bodies are not part of the
source tree, so the operational behaviour below is modelled from the design
specification (spec.md sections 3, 4, 7, 8) and checked against it.

The model is a shallow embedding: the trie buffer is a rose tree of PtNode
records (a node array is a list of sibling nodes), buffer positions are
preorder record indices into the flattened buffer, and the policy facade is a
record `Dict` carrying the trie, the bigram side table, the header counters,
the iteration cache and the corruption flag.
-/

namespace Ver4

set_option maxRecDepth 8000

/-- Longest-common-prefix length of two code-point sequences. -/
def lcpLen : List Nat → List Nat → Nat
  | a :: as, b :: bs => if a = b then lcpLen as bs + 1 else 0
  | _, _ => 0

/-- Lower-casing of one code point; the locale layer is external, so we model
it on the ASCII range only. -/
def toLowerCp (c : Nat) : Nat := if 65 ≤ c ∧ c ≤ 90 then c + 32 else c

/-- Modify the element at one index of a list, leaving the list unchanged when
the index is out of range. -/
def modifyIdx (f : α → α) : Nat → List α → List α
  | _, [] => []
  | 0, x :: xs => f x :: xs
  | i + 1, x :: xs => x :: modifyIdx f i xs

/-- Index of the first element satisfying a predicate. -/
def findIdxQ (p : α → Bool) : List α → Option Nat
  | [] => none
  | x :: xs => if p x then some 0 else (findIdxQ p xs).map (· + 1)

/-- Modelled from the spec: one trie node record (spec.md §3 "TrieNode", §6
record format).  The node bodies live in source files that are not under
`src/`; only the policy header is.  Fields: the merged code-point sequence of
the edge, the terminal flag, the unigram probability and the stable terminal
identifier (meaningful when terminal), the tombstone flag, and the child node
array. -/
inductive PtNode : Type where
  | mk (codePoints : List Nat) (term : Bool) (prob : Nat) (tid : Nat) (del : Bool)
       (children : List PtNode) : PtNode
deriving Repr

def PtNode.codePoints : PtNode → List Nat
  | .mk cps _ _ _ _ _ => cps

def PtNode.isTerminal : PtNode → Bool
  | .mk _ term _ _ _ _ => term

def PtNode.probability : PtNode → Nat
  | .mk _ _ prob _ _ _ => prob

def PtNode.terminalId : PtNode → Nat
  | .mk _ _ _ tid _ _ => tid

def PtNode.isDeleted : PtNode → Bool
  | .mk _ _ _ _ del _ => del

def PtNode.children : PtNode → List PtNode
  | .mk _ _ _ _ _ cs => cs

/-- First code point of a node's edge sequence. -/
def headCp (n : PtNode) : Option Nat := n.codePoints.head?

/-- View of one buffer record as seen by a traversal: the full accumulated
word that ends at the node, plus the node's own flags and payload. -/
structure PtEntry where
  word : List Nat
  isTerminal : Bool
  probability : Nat
  terminalId : Nat
  isDeleted : Bool
deriving Repr, DecidableEq

/-- A record holds a live word exactly when it is terminal and not
tombstoned. -/
def PtEntry.isLive (e : PtEntry) : Bool := e.isTerminal && !e.isDeleted

mutual
/-- Preorder flattening of one node: the node's own record view followed by
the records of its child array.  The index of a record in this flattening is
its buffer position (spec.md §9 models positions as opaque indices). -/
def flattenNode (pfx : List Nat) (n : PtNode) : List PtEntry :=
  match n with
  | .mk cps term prob tid del cs =>
    ⟨pfx ++ cps, term, prob, tid, del⟩ :: flattenArr (pfx ++ cps) cs
/-- Preorder flattening of a node array. -/
def flattenArr (pfx : List Nat) (ns : List PtNode) : List PtEntry :=
  match ns with
  | [] => []
  | n :: rest => flattenNode pfx n ++ flattenArr pfx rest
end

mutual
/-- Number of records in the subtree of one node. -/
def cntNode : PtNode → Nat
  | .mk _ _ _ _ _ cs => 1 + cntArr cs
/-- Number of records in a node array. -/
def cntArr : List PtNode → Nat
  | [] => 0
  | n :: rest => cntNode n + cntArr rest
end

mutual
/-- Modelled from the spec: serialized byte size of one node record (spec.md
§6): flag byte, code-point payload, probability and terminal id when
terminal, child-array position field when children exist. -/
def ptNodeSize : PtNode → Nat
  | .mk cps term _ _ _ cs =>
    1 + cps.length + (if term then 2 else 0) + (if cs.isEmpty then 0 else 3) + ptArrSize cs
/-- Serialized byte size of a node array. -/
def ptArrSize : List PtNode → Nat
  | [] => 0
  | n :: rest => ptNodeSize n + ptArrSize rest
end

mutual
/-- Number of tombstoned records in the subtree of one node. -/
def delCntNode : PtNode → Nat
  | .mk _ _ _ _ del cs => (if del then 1 else 0) + delCntArr cs
/-- Number of tombstoned records in a node array. -/
def delCntArr : List PtNode → Nat
  | [] => 0
  | n :: rest => delCntNode n + delCntArr rest
end

mutual
/-- Codec validity of one node record: a record with an empty code-point
sequence fails the codec's checks (spec.md §4.2). -/
def malformedNode : PtNode → Bool
  | .mk cps _ _ _ _ cs => cps.isEmpty || malformedArr cs
/-- Codec validity of a node array. -/
def malformedArr : List PtNode → Bool
  | [] => false
  | n :: rest => malformedNode n || malformedArr rest
end

mutual
/-- Modelled from the spec: the insert/split step of
`DynamicPtUpdatingHelper` on one node whose first code point matches the
input (spec.md §4.3).  Returns the rewritten node, the next free terminal id,
and whether a new word entry was created.  Outcome (a): exact match updates
the node in place, resurrecting a tombstone; descent (b) recurses into the
child array with the remaining input; outcome 3: a partial match splits the
node into a shortened prefix node over the original tail (and, when the input
diverges, a fresh sibling leaf for the remainder). -/
def insNode (n : PtNode) (w : List Nat) (p : Nat) (nid : Nat) : PtNode × Nat × Bool :=
  match n with
  | .mk cps term prob tid del cs =>
    let k := lcpLen cps w
    if k = cps.length then
      if k = w.length then
        (.mk cps true p (if term then tid else nid) false cs,
         (if term then nid else nid + 1), !(term && !del))
      else
        let r := insArr cs (w.drop k) p nid
        (.mk cps term prob tid del r.1, r.2)
    else
      let tailNode : PtNode := .mk (cps.drop k) term prob tid del cs
      if k = w.length then
        (.mk (cps.take k) true p nid false [tailNode], nid + 1, true)
      else
        (.mk (cps.take k) false 0 0 false
           [tailNode, .mk (w.drop k) true p nid false []], nid + 1, true)
/-- Modelled from the spec: the insert/split step on a node array (spec.md
§4.3): engage the sibling sharing the input's first code point, or append a
fresh terminal leaf for the whole remainder (outcome (c)). -/
def insArr (ns : List PtNode) (w : List Nat) (p : Nat) (nid : Nat) :
    List PtNode × Nat × Bool :=
  match ns with
  | [] => ([PtNode.mk w true p nid false []], nid + 1, true)
  | n :: rest =>
    if headCp n = w.head? then
      let r := insNode n w p nid
      (r.1 :: rest, r.2)
    else
      let r := insArr rest w p nid
      (n :: r.1, r.2)
end

mutual
/-- Modelled from the spec: set the tombstone flag of the record at one
preorder buffer position (spec.md §4.3 removal: the node is marked, not
unlinked). -/
def markNodeAt : PtNode → Nat → PtNode
  | .mk cps term prob tid del cs, i =>
    if i = 0 then .mk cps term prob tid true cs
    else .mk cps term prob tid del (markArrAt cs (i - 1))
/-- Tombstone the record at one preorder position of a node array. -/
def markArrAt : List PtNode → Nat → List PtNode
  | [], _ => []
  | n :: rest, i =>
    if i < cntNode n then markNodeAt n i :: rest
    else n :: markArrAt rest (i - cntNode n)
end

mutual
/-- Modelled from the spec: the mark-and-compact pass of the writing helper
on one node (spec.md §4.5): a live terminal is rewritten (with its compacted
child array); a node that is not a live terminal is dropped when nothing
live remains below it, and otherwise rewritten as a plain path node with its
word payload dropped. -/
def gcNode : PtNode → Option PtNode
  | .mk cps term prob tid del cs =>
    let cs' := gcArr cs
    if term && !del then some (.mk cps true prob tid false cs')
    else if cs'.isEmpty then none
    else some (.mk cps false 0 0 false cs')
/-- Compaction of a node array: rewrite the kept siblings in order. -/
def gcArr : List PtNode → List PtNode
  | [] => []
  | n :: rest =>
    match gcNode n with
    | some n' => n' :: gcArr rest
    | none => gcArr rest
end

mutual
/-- Strong structural invariant of the dynamic trie: every record has a
nonempty code-point sequence and the siblings of every array have pairwise
distinct first code points (spec.md §3 "NodeArray" invariant, strengthened
from live siblings to all siblings, which the update algorithm maintains
because re-adding a removed word resurrects its tombstone instead of
appending a duplicate). -/
def nodeOk : PtNode → Bool
  | .mk cps _ _ _ _ cs => (!cps.isEmpty) && arrOk cs
/-- Strong structural invariant on a node array. -/
def arrOk : List PtNode → Bool
  | [] => true
  | n :: rest => nodeOk n && decide (headCp n ∉ rest.map headCp) && arrOk rest
end

/-- The claim-level compression invariant on one array: no two live
(non-tombstoned) siblings begin with the same first code point. -/
def liveHeadsOk (ns : List PtNode) : Bool :=
  decide (((ns.filter fun n => !n.isDeleted).map headCp).Nodup)

mutual
/-- Claim-level compression invariant, recursively at every array of a
node's subtree. -/
def liveSibsNode : PtNode → Bool
  | .mk _ _ _ _ _ cs => liveHeadsOk cs && liveSibsArr cs
/-- Claim-level compression invariant under every node of an array. -/
def liveSibsArr : List PtNode → Bool
  | [] => true
  | n :: rest => liveSibsNode n && liveSibsArr rest
end

/-- Modelled from the spec: one record of the bigram side table (spec.md §3
"BigramEntry"): source and target terminal identifiers, the conditional
probability, and the tombstone flag. -/
structure BigramEntry where
  src : Nat
  tgt : Nat
  prob : Nat
  isDeleted : Bool
deriving Repr, DecidableEq

/-- Modelled from the spec: one record of the shortcut side table (spec.md
§3 "ShortcutEntry", §4.4): the owning source terminal identifier through
which the Terminal Position Table addresses the list, the alternate
code-point sequence, its probability, the whitelist/blacklist style flag,
and the tombstone flag. -/
structure ShortcutEntry where
  src : Nat
  target : List Nat
  prob : Nat
  isWhitelist : Bool
  isDeleted : Bool
deriving Repr, DecidableEq

/-- Modelled from the spec: the per-instance state behind
`Ver4PatriciaTriePolicy` (header lines 132-145): the trie buffer, the next
free terminal identifier, the bigram and shortcut side tables, the two
header counters, the cached terminal ordering for word iteration
(`mTerminalPtNodePositionsForIteratingWords`), and the sticky corruption flag
(`mIsCorrupted`). -/
structure Dict where
  root : List PtNode
  nextTerminalId : Nat
  bigrams : List BigramEntry
  shortcuts : List ShortcutEntry
  unigramCount : Nat
  bigramCount : Nat
  iterCache : Option (List (List Nat))
  isCorrupted : Bool

/-- A freshly created empty dictionary. -/
def initialDict : Dict :=
  { root := [], nextTerminalId := 0, bigrams := [], shortcuts := [],
    unigramCount := 0, bigramCount := 0, iterCache := none,
    isCorrupted := false }

/-- All records of the trie buffer in position order. -/
def dictEntries (d : Dict) : List PtEntry := flattenArr [] d.root

/-- Whether a record is the live terminal of the word w. -/
def isLiveWordEntry (w : List Nat) (e : PtEntry) : Bool :=
  decide (e.word = w) && e.isLive

/-- Buffer position of the live terminal of w, when present. -/
def findLiveIdx (d : Dict) (w : List Nat) : Option Nat :=
  findIdxQ (isLiveWordEntry w) (dictEntries d)

/-- The live terminal record of w, when present. -/
def findLiveEntry (d : Dict) (w : List Nat) : Option PtEntry :=
  (dictEntries d).find? (isLiveWordEntry w)

/-- Terminal identifier of a live word. -/
def lookupTid (d : Dict) (w : List Nat) : Option Nat :=
  (findLiveEntry d w).map (·.terminalId)

/-- Unigram probability of a live word. -/
def lookupProbability (d : Dict) (w : List Nat) : Option Nat :=
  (findLiveEntry d w).map (·.probability)

/-- The live words of the dictionary, in buffer position order. -/
def liveWords (d : Dict) : List (List Nat) :=
  ((dictEntries d).filter PtEntry.isLive).map (·.word)

/-- Terminal identifiers of the live words, in buffer position order. -/
def liveTids (d : Dict) : List Nat :=
  ((dictEntries d).filter PtEntry.isLive).map (·.terminalId)

/-- Modelled from the spec: maximum representable trie buffer size; positions
are fixed-width offsets (spec.md §4.5).  The spec fixes no numeric values for
the capacity constants, only their relationships, so small illustrative
values are used. -/
def MAX_DICTIONARY_SIZE : Nat := 256

/-- Margin below the maximum size at which dynamic operations are refused
(header line 129). -/
def MARGIN_TO_REFUSE_DYNAMIC_OPERATIONS : Nat := 64

/-- Minimum dictionary size above which the near-capacity refusal applies
(header line 130). -/
def MIN_DICT_SIZE_TO_REFUSE_DYNAMIC_OPERATIONS : Nat := 128

/-- Current serialized size of the dictionary buffers: the trie records
(tombstones included, until compaction) plus the bigram records at four
bytes each. -/
def dictBufSize (d : Dict) : Nat :=
  1 + ptArrSize d.root + 4 * d.bigrams.length

/-- Modelled from the spec: the capacity-refusal condition (spec.md §4.5,
§7): the buffer is within `MARGIN_TO_REFUSE_DYNAMIC_OPERATIONS` of the
maximum representable size and above
`MIN_DICT_SIZE_TO_REFUSE_DYNAMIC_OPERATIONS`. -/
def refusesDynamicOperations (d : Dict) : Bool :=
  decide (MAX_DICTIONARY_SIZE - MARGIN_TO_REFUSE_DYNAMIC_OPERATIONS ≤ dictBufSize d) &&
  decide (MIN_DICT_SIZE_TO_REFUSE_DYNAMIC_OPERATIONS < dictBufSize d)

/-- Modelled from the spec: `addUnigramEntry` (header lines 90-91, spec.md
§4.3): refused without any write when the instance is corrupted or the
buffer is near capacity; otherwise the insert/split traversal runs, the
unigram counter grows when a new word entry was created, and the iteration
ordering is invalidated. -/
def addUnigramEntry (d : Dict) (w : List Nat) (p : Nat) : Bool × Dict :=
  if d.isCorrupted then (false, d)
  else if refusesDynamicOperations d then (false, d)
  else if w.isEmpty then (false, d)
  else
    let r := insArr d.root w p d.nextTerminalId
    (true, { d with
               root := r.1,
               nextTerminalId := r.2.1,
               unigramCount := d.unigramCount + (if r.2.2 then 1 else 0),
               iterCache := none })

/-- Modelled from the spec: `removeUnigramEntry` (header line 93, spec.md
§4.3): refused when corrupted; otherwise locate the live terminal of the
word and set its tombstone flag at that buffer position, without unlinking
the record. -/
def removeUnigramEntry (d : Dict) (w : List Nat) : Bool × Dict :=
  if d.isCorrupted then (false, d)
  else
    match findLiveIdx d w with
    | none => (false, d)
    | some i =>
      (true, { d with
                 root := markArrAt d.root i,
                 unigramCount := d.unigramCount - 1,
                 iterCache := none })

/-- Modelled from the spec: `addNgramEntry` (header lines 95-96, spec.md
§4.4): refused when corrupted or near capacity; otherwise append-or-update
the bigram record keyed by the two terminal identifiers. -/
def addNgramEntry (d : Dict) (w0 w1 : List Nat) (p : Nat) : Bool × Dict :=
  if d.isCorrupted then (false, d)
  else if refusesDynamicOperations d then (false, d)
  else
    match lookupTid d w0, lookupTid d w1 with
    | some t0, some t1 =>
      if d.bigrams.any fun e => decide (e.src = t0) && decide (e.tgt = t1) && !e.isDeleted then
        (true, { d with
          bigrams := d.bigrams.map (fun e =>
            if decide (e.src = t0) && decide (e.tgt = t1) && !e.isDeleted then
              { e with prob := p }
            else e),
          iterCache := none })
      else
        (true, { d with
                   bigrams := d.bigrams ++ [⟨t0, t1, p, false⟩],
                   bigramCount := d.bigramCount + 1,
                   iterCache := none })
    | _, _ => (false, d)

/-- Modelled from the spec: `removeNgramEntry` (header lines 98-99, spec.md
§4.4): refused when corrupted; otherwise tombstone the matching live bigram
record without unlinking it. -/
def removeNgramEntry (d : Dict) (w0 w1 : List Nat) : Bool × Dict :=
  if d.isCorrupted then (false, d)
  else
    match lookupTid d w0, lookupTid d w1 with
    | some t0, some t1 =>
      if d.bigrams.any fun e => decide (e.src = t0) && decide (e.tgt = t1) && !e.isDeleted then
        (true, { d with
          bigrams := d.bigrams.map (fun e =>
            if decide (e.src = t0) && decide (e.tgt = t1) && !e.isDeleted then
              { e with isDeleted := true }
            else e),
          iterCache := none })
      else (false, d)
    | _, _ => (false, d)

/-- Modelled from the spec: `flush` (header line 101, spec.md §4.5):
serializes the buffers as they are; the in-memory state is unchanged. -/
def flush (d : Dict) : Bool × Dict := (true, d)

/-- Modelled from the spec: `flushWithGC` (header line 103, spec.md §4.5):
compact the trie by the mark pass, drop tombstoned bigram and shortcut
records and the lists of dead terminals, keep the terminal identifiers
unchanged, and invalidate the iteration ordering. -/
def flushWithGC (d : Dict) : Bool × Dict :=
  let root' := gcArr d.root
  let tids := ((flattenArr [] root').filter PtEntry.isLive).map (·.terminalId)
  (true, { root := root', nextTerminalId := d.nextTerminalId,
           bigrams := d.bigrams.filter (fun e => (!e.isDeleted) && decide (e.src ∈ tids)),
           shortcuts := d.shortcuts.filter (fun e => (!e.isDeleted) && decide (e.src ∈ tids)),
           unigramCount := d.unigramCount, bigramCount := d.bigramCount,
           iterCache := none, isCorrupted := d.isCorrupted })


/-- Sentinel returned by lookups for an absent word (a negative position). -/
def NOT_A_DICT_POS : Int := -1

/-- Sentinel probability meaning "no entry". -/
def NOT_A_PROBABILITY : Int := -1

/-- Modelled from the spec: the pure lookup result of
`getTerminalPtNodePositionOfWord` (header lines 70-71, spec.md §4.6): the
buffer position of the word's live terminal; on a miss with
`forceLowerCaseSearch` set, the lower-cased code points are tried before the
not-found sentinel is returned. -/
def terminalPosPure (d : Dict) (w : List Nat) (forceLowerCaseSearch : Bool) : Int :=
  match findLiveIdx d w with
  | some i => (i : Int)
  | none =>
    if forceLowerCaseSearch then
      match findLiveIdx d (w.map toLowerCp) with
      | some i => (i : Int)
      | none => NOT_A_DICT_POS
    else NOT_A_DICT_POS

/-- Modelled from the spec: the state effect shared by the const read
operations (spec.md §4.6): nothing changes except the mutable corruption
flag, which becomes set when the traversal meets a record failing the
codec's validity checks, and is never cleared. -/
def readScan (d : Dict) : Dict :=
  { d with isCorrupted := d.isCorrupted || malformedArr d.root }

/-- Stateful `getTerminalPtNodePositionOfWord`: the pure result plus the
const-read state effect. -/
def getTerminalPtNodePositionOfWord (d : Dict) (w : List Nat)
    (forceLowerCaseSearch : Bool) : Int × Dict :=
  (terminalPosPure d w forceLowerCaseSearch, readScan d)

/-- Modelled from the spec: `getProbability` (header line 73, spec.md §4.6):
with no bigram entry the unigram probability alone is used; with a bigram
entry the blend is dominated by the bigram evidence but never falls below a
floor derived from the unigram value (the halved unigram probability; the
exact constant is flagged tunable by spec.md §9). -/
def getProbability (unigramProbability bigramProbability : Int) : Int :=
  if bigramProbability = NOT_A_PROBABILITY then unigramProbability
  else max bigramProbability (unigramProbability / 2)

/-- Record at one buffer position. -/
def entryAtPos (d : Dict) (pos : Nat) : Option PtEntry := (dictEntries d)[pos]?

/-- Modelled from the spec: pure result of
`getCodePointsAndProbabilityAndReturnCodePointCount` (header lines 66-68,
spec.md §4.6): the accumulated code points and the stored probability of the
live terminal at a position; fails (none) rather than truncating when the
sequence would not fit in `maxCodePointCount`. -/
def codePointsAndProbabilityAt (d : Dict) (pos : Nat) (maxCodePointCount : Nat) :
    Option (List Nat × Nat) :=
  match entryAtPos d pos with
  | some e => if e.isLive && decide (e.word.length ≤ maxCodePointCount)
              then some (e.word, e.probability) else none
  | none => none

/-- Stateful wrapper for the code-point read. -/
def getCodePointsAndProbabilityAndReturnCodePointCount (d : Dict) (pos : Nat)
    (maxCodePointCount : Nat) : Option (List Nat × Nat) × Dict :=
  (codePointsAndProbabilityAt d pos maxCodePointCount, readScan d)

mutual
/-- Node (not record view) at one preorder position of a node subtree. -/
def nodeAtNode : PtNode → Nat → Option PtNode
  | n, 0 => some n
  | .mk _ _ _ _ _ cs, i + 1 => nodeAtArr cs i
/-- Node at one preorder position of a node array. -/
def nodeAtArr : List PtNode → Nat → Option PtNode
  | [], _ => none
  | n :: rest, i =>
    if i < cntNode n then nodeAtNode n i else nodeAtArr rest (i - cntNode n)
end

/-- Modelled from the spec: pure result of `createAndGetAllChildDicNodes`
(header lines 63-64, spec.md §4.6): the edge sequences of the immediate
children of the node at a search-state position. -/
def childDicNodesAt (d : Dict) (pos : Nat) : List (List Nat) :=
  match nodeAtArr d.root pos with
  | some n => n.children.map PtNode.codePoints
  | none => []

/-- Stateful wrapper for the child-expansion read. -/
def createAndGetAllChildDicNodes (d : Dict) (pos : Nat) : List (List Nat) × Dict :=
  (childDicNodesAt d pos, readScan d)

/-- Live bigram records owned by one source terminal identifier, as
(target identifier, probability) pairs in list order. -/
def liveBigramsOfTid (d : Dict) (t : Nat) : List (Nat × Nat) :=
  (d.bigrams.filter fun e => (!e.isDeleted) && decide (e.src = t)).map
    fun e => (e.tgt, e.prob)

/-- Live bigram list of a word, through the terminal-identifier keying. -/
def bigramListOfWord (d : Dict) (w : List Nat) : List (Nat × Nat) :=
  match lookupTid d w with
  | some t => liveBigramsOfTid d t
  | none => []

/-- Live shortcut records owned by one source terminal identifier, in list
order (spec.md §4.4: iteration walks the live entries only). -/
def liveShortcutsOfTid (d : Dict) (t : Nat) : List ShortcutEntry :=
  d.shortcuts.filter fun e => (!e.isDeleted) && decide (e.src = t)

/-- Modelled from the spec: pure result of `iterateNgramEntries` (header
lines 77-78, spec.md §4.4): the listener visits exactly the live
(non-tombstoned) entries of the preceding word's list. -/
def ngramEntriesAt (d : Dict) (prevPos : Nat) : List (Nat × Nat) :=
  match entryAtPos d prevPos with
  | some e => if e.isLive then liveBigramsOfTid d e.terminalId else []
  | none => []

/-- Stateful wrapper for the n-gram iteration read. -/
def iterateNgramEntries (d : Dict) (prevPos : Nat) : List (Nat × Nat) × Dict :=
  (ngramEntriesAt d prevPos, readScan d)

/-- Modelled from the spec: pure result of `getProbabilityOfPtNode` (header
line 75, spec.md §4.6): look up the bigram entry keyed by the previous
word's terminal and the current node's terminal, then blend. -/
def probabilityOfPtNodePure (d : Dict) (prevPos pos : Nat) : Int :=
  match entryAtPos d pos with
  | some e =>
    if e.isLive then
      let bg : Int :=
        match entryAtPos d prevPos with
        | some pe =>
          if pe.isLive then
            match (liveBigramsOfTid d pe.terminalId).find?
                (fun q => decide (q.1 = e.terminalId)) with
            | some q => (q.2 : Int)
            | none => NOT_A_PROBABILITY
          else NOT_A_PROBABILITY
        | none => NOT_A_PROBABILITY
      getProbability (e.probability : Int) bg
    else NOT_A_PROBABILITY
  | none => NOT_A_PROBABILITY

/-- Stateful wrapper for the per-node probability read. -/
def getProbabilityOfPtNode (d : Dict) (prevPos pos : Nat) : Int × Dict :=
  (probabilityOfPtNodePure d prevPos pos, readScan d)

/-- Modelled from the spec: pure result of `getWordProperty` (header lines
110-111): the word's stored probability together with its live bigram
list. -/
def wordPropertyPure (d : Dict) (w : List Nat) : Option Nat × List (Nat × Nat) :=
  (lookupProbability d w, bigramListOfWord d w)

/-- Stateful wrapper for the word-property read. -/
def getWordProperty (d : Dict) (w : List Nat) : (Option Nat × List (Nat × Nat)) × Dict :=
  (wordPropertyPure d w, readScan d)

/-- Modelled from the spec: pure result of `needsToRunGC` (header line 105,
spec.md §4.5): true when the tombstone density has degraded past a threshold
or the buffer is near its capacity boundary. -/
def needsToRunGCPure (d : Dict) (mindsBlockByGC : Bool) : Bool :=
  (if mindsBlockByGC then delCntArr d.root * 4 > cntArr d.root
   else delCntArr d.root * 2 > cntArr d.root) || refusesDynamicOperations d

/-- Stateful wrapper for the GC-need read. -/
def needsToRunGC (d : Dict) (mindsBlockByGC : Bool) : Bool × Dict :=
  (needsToRunGCPure d mindsBlockByGC, readScan d)

/-- Modelled from the spec: `getNextWordAndNextToken` (header lines 113-114,
spec.md §4.6): a restartable cursor over a lazily materialized stable
ordering of the live words.  Token 0 (re)materializes the ordering into the
cache; each call returns one word and the token to resume with; the
terminating sentinel token is 0. -/
def getNextWordAndNextToken (d : Dict) (token : Nat) :
    Option (List Nat) × Nat × Dict :=
  let words := if token = 0 then liveWords d else d.iterCache.getD (liveWords d)
  let d' := { d with iterCache := some words }
  match words[token]? with
  | some w => (some w, if token + 1 < words.length then token + 1 else 0, d')
  | none => (none, 0, d')

/-- Drive the word iterator: starting from a token, collect the returned
words until the sentinel token 0 comes back (or fuel runs out). -/
def runIter (fuel : Nat) (d : Dict) (token : Nat) : List (List Nat) × Nat :=
  match fuel with
  | 0 => ([], token)
  | fuel + 1 =>
    let r := getNextWordAndNextToken d token
    match r.1 with
    | none => ([], r.2.1)
    | some w =>
      if r.2.1 = 0 then ([w], 0)
      else
        let q := runIter fuel r.2.2 r.2.1
        (w :: q.1, q.2)

/-- One public operation of the policy facade. -/
inductive DictOp : Type where
  | addU (w : List Nat) (p : Nat)
  | removeU (w : List Nat)
  | addB (w0 w1 : List Nat) (p : Nat)
  | removeB (w0 w1 : List Nat)
  | flushGC
  | flushPlain
  | lookupW (w : List Nat) (flc : Bool)
  | nextWord (token : Nat)
deriving Repr, DecidableEq

/-- State transition of one facade operation. -/
def applyOp (op : DictOp) (d : Dict) : Dict :=
  match op with
  | .addU w p => (addUnigramEntry d w p).2
  | .removeU w => (removeUnigramEntry d w).2
  | .addB w0 w1 p => (addNgramEntry d w0 w1 p).2
  | .removeB w0 w1 => (removeNgramEntry d w0 w1).2
  | .flushGC => (flushWithGC d).2
  | .flushPlain => (flush d).2
  | .lookupW w flc => (getTerminalPtNodePositionOfWord d w flc).2
  | .nextWord t => (getNextWordAndNextToken d t).2.2

/-- State after a sequence of facade operations. -/
def applyOps (ops : List DictOp) (d : Dict) : Dict :=
  ops.foldl (fun s op => applyOp op s) d

/-! ### Elementary lemmas about the longest common prefix -/

theorem lcpLen_le_left (a b : List Nat) : lcpLen a b ≤ a.length := by
  induction a generalizing b with
  | nil => simp [lcpLen]
  | cons x xs ih =>
    cases b with
    | nil => simp [lcpLen]
    | cons y ys =>
      by_cases h : x = y <;> simp [lcpLen, h]
      exact ih ys

theorem lcpLen_le_right (a b : List Nat) : lcpLen a b ≤ b.length := by
  induction a generalizing b with
  | nil => simp [lcpLen]
  | cons x xs ih =>
    cases b with
    | nil => simp [lcpLen]
    | cons y ys =>
      by_cases h : x = y <;> simp [lcpLen, h]
      exact ih ys

theorem lcpLen_self (a : List Nat) : lcpLen a a = a.length := by
  induction a with
  | nil => simp [lcpLen]
  | cons x xs ih => simp [lcpLen, ih]

theorem lcpLen_pos (a b : List Nat) (hh : a.head? = b.head?) (ha : a ≠ []) :
    1 ≤ lcpLen a b := by
  cases a with
  | nil => exact absurd rfl ha
  | cons x xs =>
    cases b with
    | nil => simp at hh
    | cons y ys =>
      simp only [List.head?_cons, Option.some_inj] at hh
      simp [lcpLen, hh]

theorem lcpLen_full_eq (a b : List Nat) (h : lcpLen a b = a.length)
    (hl : a.length = b.length) : a = b := by
  induction a generalizing b with
  | nil => cases b <;> simp_all
  | cons x xs ih =>
    cases b with
    | nil => simp at hl
    | cons y ys =>
      by_cases hxy : x = y
      · subst hxy
        simp [lcpLen] at h hl
        simp only [List.cons.injEq, true_and]
        exact ih ys (by omega) (by omega)
      · simp [lcpLen, hxy] at h

theorem lcpLen_drop_head_ne (a b : List Nat) (h1 : lcpLen a b < a.length)
    (h2 : lcpLen a b < b.length) :
    (a.drop (lcpLen a b)).head? ≠ (b.drop (lcpLen a b)).head? := by
  induction a generalizing b with
  | nil => simp at h1
  | cons x xs ih =>
    cases b with
    | nil => simp at h2
    | cons y ys =>
      by_cases hxy : x = y
      · simp only [lcpLen, if_pos hxy, List.length_cons, Nat.add_lt_add_iff_right,
          List.drop_succ_cons] at h1 h2 ⊢
        exact ih ys h1 h2
      · simp [lcpLen, hxy]

theorem lcpLen_take_left (a b : List Nat) :
    lcpLen (a.take (lcpLen a b)) b = lcpLen a b := by
  induction a generalizing b with
  | nil => simp [lcpLen]
  | cons x xs ih =>
    cases b with
    | nil => simp [lcpLen]
    | cons y ys =>
      by_cases hxy : x = y <;> simp [lcpLen, hxy]
      exact ih ys

theorem head?_take (a : List Nat) (k : Nat) (hk : 1 ≤ k) :
    (a.take k).head? = a.head? := by
  cases a with
  | nil => simp
  | cons x xs =>
    cases k with
    | zero => omega
    | succ m => simp

theorem drop_ne_nil (a : List Nat) (k : Nat) (hk : k < a.length) :
    a.drop k ≠ [] := by
  intro h
  have := congrArg List.length h
  simp at this
  omega

/-! ### Preservation of the structural invariant by the insert/split step -/

theorem isEmpty_false_ne (a : List Nat) : a.isEmpty = false ↔ a ≠ [] := by
  cases a <;> simp

theorem arrOk_nodupHeads (ns : List PtNode) (h : arrOk ns = true) :
    (ns.map headCp).Nodup := by
  induction ns with
  | nil => simp
  | cons n rest ih =>
    simp only [arrOk, Bool.and_eq_true, decide_eq_true_eq] at h
    simp only [List.map_cons, List.nodup_cons]
    exact ⟨h.1.2, ih h.2⟩

mutual
theorem insNode_pres (n : PtNode) (w : List Nat) (p nid : Nat)
    (hok : nodeOk n = true) (hh : headCp n = w.head?) (_hw : w ≠ []) :
    nodeOk (insNode n w p nid).1 = true ∧
      headCp (insNode n w p nid).1 = headCp n :=
  match n with
  | .mk cps term prob tid del cs => by
    simp only [nodeOk, Bool.and_eq_true, Bool.not_eq_true'] at hok
    obtain ⟨hcps, hcsok⟩ := hok
    have hcps' : cps ≠ [] := (isEmpty_false_ne cps).mp hcps
    have hk1 : 1 ≤ lcpLen cps w := lcpLen_pos cps w hh hcps'
    simp only [insNode]
    by_cases h1 : lcpLen cps w = cps.length
    · rw [if_pos h1]
      by_cases h2 : lcpLen cps w = w.length
      · rw [if_pos h2]
        simp [nodeOk, headCp, PtNode.codePoints, hcps, hcsok]
      · rw [if_neg h2]
        have hklt : lcpLen cps w < w.length :=
          lt_of_le_of_ne (lcpLen_le_right cps w) h2
        have hdrop : w.drop (lcpLen cps w) ≠ [] := drop_ne_nil w _ hklt
        have hrec := insArr_pres cs (w.drop (lcpLen cps w)) p nid hcsok hdrop
        simp [nodeOk, headCp, PtNode.codePoints, hcps, hrec.1]
    · rw [if_neg h1]
      have hklta : lcpLen cps w < cps.length :=
        lt_of_le_of_ne (lcpLen_le_left cps w) h1
      have hdropa : cps.drop (lcpLen cps w) ≠ [] := drop_ne_nil cps _ hklta
      have htake : (cps.take (lcpLen cps w)).head? = cps.head? :=
        head?_take cps _ hk1
      have htakene : cps.take (lcpLen cps w) ≠ [] := by
        have h0 : (cps.take (lcpLen cps w)).length = lcpLen cps w := by
          rw [List.length_take]
          omega
        intro hnil
        rw [hnil] at h0
        simp at h0
        omega
      by_cases h2 : lcpLen cps w = w.length
      · rw [if_pos h2]
        simp [nodeOk, arrOk, headCp, PtNode.codePoints,
          (isEmpty_false_ne _).mpr htakene, (isEmpty_false_ne _).mpr hdropa,
          hcsok, htake]
      · rw [if_neg h2]
        have hkltb : lcpLen cps w < w.length :=
          lt_of_le_of_ne (lcpLen_le_right cps w) h2
        have hdropb : w.drop (lcpLen cps w) ≠ [] := drop_ne_nil w _ hkltb
        have hne := lcpLen_drop_head_ne cps w hklta hkltb
        rw [List.head?_drop, List.head?_drop] at hne
        simp [nodeOk, arrOk, headCp, PtNode.codePoints,
          (isEmpty_false_ne _).mpr htakene, (isEmpty_false_ne _).mpr hdropa,
          (isEmpty_false_ne _).mpr hdropb, hcsok, htake, hne]

theorem insArr_pres (ns : List PtNode) (w : List Nat) (p nid : Nat)
    (hok : arrOk ns = true) (hw : w ≠ []) :
    arrOk (insArr ns w p nid).1 = true ∧
      ∀ x ∈ (insArr ns w p nid).1.map headCp,
        x ∈ ns.map headCp ∨ x = w.head? :=
  match ns with
  | [] => by
    simp [insArr, arrOk, nodeOk, headCp, PtNode.codePoints, List.isEmpty_iff, hw]
  | n :: rest => by
    simp only [arrOk, Bool.and_eq_true, decide_eq_true_eq] at hok
    obtain ⟨⟨hnok, hnotin⟩, hrestok⟩ := hok
    by_cases hh : headCp n = w.head?
    · have hrec := insNode_pres n w p nid hnok hh hw
      constructor
      · simp only [insArr, if_pos hh, arrOk, Bool.and_eq_true, decide_eq_true_eq]
        exact ⟨⟨hrec.1, by rw [hrec.2]; exact hnotin⟩, hrestok⟩
      · intro x hx
        simp only [insArr, if_pos hh, List.map_cons, List.mem_cons] at hx
        rcases hx with hx | hx
        · left
          simp [hx, hrec.2]
        · left
          simp only [List.map_cons, List.mem_cons]
          right
          exact hx
    · have hrec := insArr_pres rest w p nid hrestok hw
      constructor
      · simp only [insArr, if_neg hh, arrOk, Bool.and_eq_true, decide_eq_true_eq]
        refine ⟨⟨hnok, ?_⟩, hrec.1⟩
        intro hmem
        rcases hrec.2 _ hmem with h | h
        · exact hnotin h
        · exact hh h
      · intro x hx
        simp only [insArr, if_neg hh, List.map_cons, List.mem_cons] at hx
        rcases hx with hx | hx
        · left
          simp [hx]
        · rcases hrec.2 _ hx with h | h
          · left
            simp only [List.map_cons, List.mem_cons]
            right
            exact h
          · right
            exact h
end

/-! ### Preservation of the structural invariant by tombstoning and GC -/

mutual
theorem markNode_pres (n : PtNode) (i : Nat) :
    nodeOk (markNodeAt n i) = nodeOk n ∧ headCp (markNodeAt n i) = headCp n :=
  match n with
  | .mk cps term prob tid del cs => by
    by_cases h0 : i = 0
    · simp [markNodeAt, h0, nodeOk, headCp, PtNode.codePoints]
    · have hrec := markArr_pres cs (i - 1)
      simp [markNodeAt, h0, nodeOk, headCp, PtNode.codePoints, hrec.1]

theorem markArr_pres (ns : List PtNode) (i : Nat) :
    arrOk (markArrAt ns i) = arrOk ns ∧
      (markArrAt ns i).map headCp = ns.map headCp :=
  match ns with
  | [] => by simp [markArrAt]
  | n :: rest => by
    by_cases hlt : i < cntNode n
    · have hrec := markNode_pres n i
      simp [markArrAt, hlt, arrOk, hrec.1, hrec.2]
    · have hrec := markArr_pres rest (i - cntNode n)
      simp [markArrAt, hlt, arrOk, hrec.1, hrec.2]
end

mutual
theorem gcNode_pres (n : PtNode) (hok : nodeOk n = true) :
    ∀ n' ∈ gcNode n, nodeOk n' = true ∧ headCp n' = headCp n :=
  match n with
  | .mk cps term prob tid del cs => by
    intro n' hn'
    simp only [nodeOk, Bool.and_eq_true, Bool.not_eq_true'] at hok
    obtain ⟨hcps, hcsok⟩ := hok
    have hrec := gcArr_pres cs hcsok
    simp only [gcNode] at hn'
    by_cases hlive : term && !del
    · rw [if_pos hlive] at hn'
      simp only [Option.mem_def, Option.some_inj] at hn'
      subst hn'
      simp [nodeOk, headCp, PtNode.codePoints, hcps, hrec.1]
    · rw [if_neg hlive] at hn'
      by_cases hemp : (gcArr cs).isEmpty
      · simp [hemp] at hn'
      · rw [if_neg hemp] at hn'
        simp only [Option.mem_def, Option.some_inj] at hn'
        subst hn'
        simp [nodeOk, headCp, PtNode.codePoints, hcps, hrec.1]

theorem gcArr_pres (ns : List PtNode) (hok : arrOk ns = true) :
    arrOk (gcArr ns) = true ∧ List.Sublist ((gcArr ns).map headCp) (ns.map headCp) :=
  match ns with
  | [] => ⟨hok, by simp [gcArr]⟩
  | n :: rest => by
    simp only [arrOk, Bool.and_eq_true, decide_eq_true_eq] at hok
    obtain ⟨⟨hnok, hnotin⟩, hrestok⟩ := hok
    have hrec := gcArr_pres rest hrestok
    simp only [gcArr]
    cases hgn : gcNode n with
    | none =>
      exact ⟨hrec.1, hrec.2.trans (List.sublist_cons_self _ _)⟩
    | some n' =>
      have hn' := gcNode_pres n hnok n' hgn
      constructor
      · simp only [arrOk, Bool.and_eq_true, decide_eq_true_eq]
        refine ⟨⟨hn'.1, ?_⟩, hrec.1⟩
        intro hmem
        exact hnotin (hrec.2.mem (hn'.2 ▸ hmem))
      · simpa [hn'.2] using hrec.2.cons₂ (headCp n)
end

/-! ### The invariant holds in every reachable state -/

/-- Structural invariant of the whole dictionary instance. -/
def dictOk (d : Dict) : Bool := arrOk d.root

theorem addUnigramEntry_dictOk (d : Dict) (w : List Nat) (p : Nat)
    (h : dictOk d = true) : dictOk (addUnigramEntry d w p).2 = true := by
  unfold addUnigramEntry
  by_cases h1 : d.isCorrupted
  · simpa [h1]
  · by_cases h2 : refusesDynamicOperations d
    · simpa [h1, h2]
    · by_cases h3 : w.isEmpty
      · simpa [h1, h2, h3]
      · have hw : w ≠ [] := by
          cases w <;> simp_all
        have := insArr_pres d.root w p d.nextTerminalId h hw
        simpa [h1, h2, h3, dictOk] using this.1

theorem removeUnigramEntry_dictOk (d : Dict) (w : List Nat)
    (h : dictOk d = true) : dictOk (removeUnigramEntry d w).2 = true := by
  unfold removeUnigramEntry
  by_cases h1 : d.isCorrupted
  · simpa [h1]
  · cases hfi : findLiveIdx d w with
    | none => simpa [h1, hfi]
    | some i =>
      have := markArr_pres d.root i
      simpa [h1, hfi, dictOk, this.1] using h

theorem flushWithGC_dictOk (d : Dict) (h : dictOk d = true) :
    dictOk (flushWithGC d).2 = true := by
  have := gcArr_pres d.root h
  simpa [flushWithGC, dictOk] using this.1

theorem applyOp_dictOk (op : DictOp) (d : Dict) (h : dictOk d = true) :
    dictOk (applyOp op d) = true := by
  cases op with
  | addU w p => exact addUnigramEntry_dictOk d w p h
  | removeU w => exact removeUnigramEntry_dictOk d w h
  | addB w0 w1 p =>
    simp only [applyOp, addNgramEntry]
    by_cases h1 : d.isCorrupted
    · simpa [h1]
    · by_cases h2 : refusesDynamicOperations d
      · simpa [h1, h2]
      · rw [if_neg h1, if_neg h2]
        cases ht0 : lookupTid d w0 with
        | none => simpa [ht0, dictOk] using h
        | some t0 =>
          cases ht1 : lookupTid d w1 with
          | none => simpa [ht0, ht1, dictOk] using h
          | some t1 =>
            simp only [ht0, ht1]
            split <;> simpa [dictOk] using h
  | removeB w0 w1 =>
    simp only [applyOp, removeNgramEntry]
    by_cases h1 : d.isCorrupted
    · simpa [h1]
    · rw [if_neg h1]
      cases ht0 : lookupTid d w0 with
      | none => simpa [ht0, dictOk] using h
      | some t0 =>
        cases ht1 : lookupTid d w1 with
        | none => simpa [ht0, ht1, dictOk] using h
        | some t1 =>
          simp only [ht0, ht1]
          split <;> simpa [dictOk] using h
  | flushGC => exact flushWithGC_dictOk d h
  | flushPlain => simpa [applyOp, flush]
  | lookupW w flc =>
    simpa [applyOp, getTerminalPtNodePositionOfWord, readScan, dictOk]
  | nextWord t =>
    unfold applyOp getNextWordAndNextToken
    simp only [dictOk] at h ⊢
    split <;> simpa

theorem applyOps_dictOk (ops : List DictOp) (d : Dict) (h : dictOk d = true) :
    dictOk (applyOps ops d) = true := by
  induction ops generalizing d with
  | nil => simpa [applyOps]
  | cons op rest ih =>
    have h1 := applyOp_dictOk op d h
    simpa [applyOps, List.foldl_cons] using ih (applyOp op d) h1

theorem initialDict_dictOk : dictOk initialDict = true := rfl

/-! ### From the strong invariant to the claim-level live-sibling invariant -/

theorem arrOk_liveHeadsOk (ns : List PtNode) (h : arrOk ns = true) :
    liveHeadsOk ns = true := by
  have h1 := arrOk_nodupHeads ns h
  have h2 : ((ns.filter fun n => !n.isDeleted).map headCp).Sublist (ns.map headCp) :=
    (List.filter_sublist ns).map headCp
  simpa [liveHeadsOk] using h1.sublist h2

mutual
theorem nodeOk_liveSibs (n : PtNode) (h : nodeOk n = true) :
    liveSibsNode n = true :=
  match n with
  | .mk cps term prob tid del cs => by
    simp only [nodeOk, Bool.and_eq_true] at h
    simp only [liveSibsNode, Bool.and_eq_true]
    exact ⟨arrOk_liveHeadsOk cs h.2, arrOk_liveSibs cs h.2⟩

theorem arrOk_liveSibs (ns : List PtNode) (h : arrOk ns = true) :
    liveSibsArr ns = true :=
  match ns with
  | [] => rfl
  | n :: rest => by
    simp only [arrOk, Bool.and_eq_true] at h
    simp only [liveSibsArr, Bool.and_eq_true]
    exact ⟨nodeOk_liveSibs n h.1.1, arrOk_liveSibs rest h.2⟩
end

/-! ### Claim C1 -/

/-- C1: after any sequence of facade operations starting from the empty
dictionary — in particular after any sequence of addUnigramEntry and
removeUnigramEntry calls, splits included — every node array of the trie has
no two live (non-tombstoned) siblings beginning with the same first code
point, at the root array and recursively below every node. -/
theorem claim_C1_prefix_compression_invariant (ops : List DictOp) :
    liveHeadsOk (applyOps ops initialDict).root = true ∧
      liveSibsArr (applyOps ops initialDict).root = true := by
  have h := applyOps_dictOk ops initialDict initialDict_dictOk
  exact ⟨arrOk_liveHeadsOk _ h, arrOk_liveSibs _ h⟩

/-! ### Idempotence of the insert step -/

theorem head?_ne_nil (a : List Nat) (c : Nat) (h : a.head? = some c) : a ≠ [] := by
  cases a <;> simp_all

theorem insNode_headCp (n : PtNode) (w : List Nat) (p nid : Nat)
    (hh : headCp n = w.head?) (hw : w ≠ []) :
    headCp (insNode n w p nid).1 = headCp n :=
  match n with
  | .mk cps term prob tid del cs => by
    have hcps' : cps ≠ [] := by
      cases w with
      | nil => exact absurd rfl hw
      | cons a as =>
        exact head?_ne_nil cps a (by simpa [headCp, PtNode.codePoints] using hh)
    have hk1 : 1 ≤ lcpLen cps w := lcpLen_pos cps w hh hcps'
    simp only [insNode]
    by_cases h1 : lcpLen cps w = cps.length
    · rw [if_pos h1]
      by_cases h2 : lcpLen cps w = w.length
      · rw [if_pos h2]
        simp [headCp, PtNode.codePoints]
      · rw [if_neg h2]
        simp [headCp, PtNode.codePoints]
    · rw [if_neg h1]
      have htake : (cps.take (lcpLen cps w)).head? = cps.head? :=
        head?_take cps _ hk1
      by_cases h2 : lcpLen cps w = w.length
      · rw [if_pos h2]
        simpa [headCp, PtNode.codePoints] using htake
      · rw [if_neg h2]
        simpa [headCp, PtNode.codePoints] using htake

mutual
theorem insNode_idem (n : PtNode) (w : List Nat) (p nid nid' : Nat)
    (hh : headCp n = w.head?) (hw : w ≠ []) :
    insNode (insNode n w p nid).1 w p nid' = ((insNode n w p nid).1, nid', false) :=
  match n with
  | .mk cps term prob tid del cs => by
    have hcps' : cps ≠ [] := by
      cases w with
      | nil => exact absurd rfl hw
      | cons a as =>
        exact head?_ne_nil cps a (by simpa [headCp, PtNode.codePoints] using hh)
    have hk1 : 1 ≤ lcpLen cps w := lcpLen_pos cps w hh hcps'
    by_cases h1 : lcpLen cps w = cps.length
    · by_cases h2 : lcpLen cps w = w.length
      · -- outcome (a): the first insert already updated the node in place
        have hcw : cps = w := lcpLen_full_eq cps w h1 (by omega)
        subst hcw
        simp [insNode, lcpLen_self]
      · -- outcome (b): both inserts descend into the same child array
        have hklt : lcpLen cps w < w.length :=
          lt_of_le_of_ne (lcpLen_le_right cps w) h2
        have hdrop : w.drop (lcpLen cps w) ≠ [] := drop_ne_nil w _ hklt
        have hrec := insArr_idem cs (w.drop (lcpLen cps w)) p nid nid' hdrop
        have hfst : insNode (PtNode.mk cps term prob tid del cs) w p nid =
            (PtNode.mk cps term prob tid del
               (insArr cs (w.drop (lcpLen cps w)) p nid).1,
             (insArr cs (w.drop (lcpLen cps w)) p nid).2) := by
          simp only [insNode]
          rw [if_pos h1, if_neg h2]
        rw [hfst]
        simp only [insNode]
        rw [if_pos h1, if_neg h2]
        simp [hrec]
    · have hklta : lcpLen cps w < cps.length :=
        lt_of_le_of_ne (lcpLen_le_left cps w) h1
      have h1' : lcpLen (cps.take (lcpLen cps w)) w =
          (cps.take (lcpLen cps w)).length := by
        rw [lcpLen_take_left, List.length_take]
        omega
      by_cases h2 : lcpLen cps w = w.length
      · -- split with the input ending at the split point
        have hfst : insNode (PtNode.mk cps term prob tid del cs) w p nid =
            (PtNode.mk (cps.take (lcpLen cps w)) true p nid false
               [PtNode.mk (cps.drop (lcpLen cps w)) term prob tid del cs],
             nid + 1, true) := by
          simp only [insNode]
          rw [if_neg h1, if_pos h2]
        have h2' : lcpLen (cps.take (lcpLen cps w)) w = w.length := by
          rw [lcpLen_take_left]
          exact h2
        rw [hfst]
        simp only [insNode]
        rw [if_pos h1', if_pos h2']
        simp
      · -- split with a divergence: the second insert descends to the fresh leaf
        have hkltb : lcpLen cps w < w.length :=
          lt_of_le_of_ne (lcpLen_le_right cps w) h2
        have hdropb : w.drop (lcpLen cps w) ≠ [] := drop_ne_nil w _ hkltb
        have hne := lcpLen_drop_head_ne cps w hklta hkltb
        have hfst : insNode (PtNode.mk cps term prob tid del cs) w p nid =
            (PtNode.mk (cps.take (lcpLen cps w)) false 0 0 false
               [PtNode.mk (cps.drop (lcpLen cps w)) term prob tid del cs,
                PtNode.mk (w.drop (lcpLen cps w)) true p nid false []],
             nid + 1, true) := by
          simp only [insNode]
          rw [if_neg h1, if_neg h2]
        have h2' : ¬lcpLen (cps.take (lcpLen cps w)) w = w.length := by
          rw [lcpLen_take_left]
          exact h2
        have hleaf : insNode (PtNode.mk (w.drop (lcpLen cps w)) true p nid false [])
            (w.drop (lcpLen cps w)) p nid' =
            (PtNode.mk (w.drop (lcpLen cps w)) true p nid false [], nid', false) := by
          simp [insNode, lcpLen_self]
        rw [hfst]
        simp only [insNode]
        rw [if_pos h1', if_neg h2']
        rw [lcpLen_take_left]
        simp only [insArr, headCp, PtNode.codePoints]
        rw [if_neg hne]
        simp only [insArr, headCp, PtNode.codePoints, if_pos rfl, hleaf]
        simp

theorem insArr_idem (ns : List PtNode) (w : List Nat) (p nid nid' : Nat)
    (hw : w ≠ []) :
    insArr (insArr ns w p nid).1 w p nid' = ((insArr ns w p nid).1, nid', false) :=
  match ns with
  | [] => by
    simp [insArr, insNode, lcpLen_self, headCp, PtNode.codePoints]
  | n :: rest => by
    by_cases hh : headCp n = w.head?
    · have hhead := insNode_headCp n w p nid hh hw
      have hrec := insNode_idem n w p nid nid' hh hw
      simp only [insArr, if_pos hh]
      rw [if_pos (hhead.trans hh)]
      simp [hrec]
    · have hrec := insArr_idem rest w p nid nid' hw
      simp only [insArr, if_neg hh]
      simp [hrec]
end

/-! ### List toolkit: modifyIdx, findIdxQ, find? bridges -/

theorem modifyIdx_length (f : α → α) (i : Nat) (l : List α) :
    (modifyIdx f i l).length = l.length := by
  induction l generalizing i with
  | nil => simp [modifyIdx]
  | cons x xs ih =>
    cases i with
    | zero => simp [modifyIdx]
    | succ j => simp [modifyIdx, ih]

theorem modifyIdx_oob (f : α → α) (i : Nat) (l : List α) (h : l.length ≤ i) :
    modifyIdx f i l = l := by
  induction l generalizing i with
  | nil => simp [modifyIdx]
  | cons x xs ih =>
    cases i with
    | zero => simp at h
    | succ j =>
      simp only [List.length_cons] at h
      simp [modifyIdx, ih j (by omega)]

theorem modifyIdx_append_left (f : α → α) (i : Nat) (a b : List α)
    (h : i < a.length) :
    modifyIdx f i (a ++ b) = modifyIdx f i a ++ b := by
  induction a generalizing i with
  | nil => simp at h
  | cons x xs ih =>
    cases i with
    | zero => simp [modifyIdx]
    | succ j =>
      simp only [List.length_cons] at h
      simp [modifyIdx, ih j (by omega)]

theorem modifyIdx_append_right (f : α → α) (i : Nat) (a b : List α)
    (h : a.length ≤ i) :
    modifyIdx f i (a ++ b) = a ++ modifyIdx f (i - a.length) b := by
  induction a generalizing i with
  | nil => simp
  | cons x xs ih =>
    cases i with
    | zero => simp at h
    | succ j =>
      simp only [List.length_cons] at h
      simp only [List.cons_append, modifyIdx, List.cons.injEq, true_and]
      simpa using ih j (by omega)

theorem getElem?_modifyIdx (f : α → α) (i j : Nat) (l : List α) :
    (modifyIdx f i l)[j]? = if j = i then (l[i]?).map f else l[j]? := by
  induction l generalizing i j with
  | nil => simp [modifyIdx]
  | cons x xs ih =>
    cases i with
    | zero =>
      cases j with
      | zero => simp [modifyIdx]
      | succ j' => simp [modifyIdx]
    | succ i' =>
      cases j with
      | zero => simp [modifyIdx]
      | succ j' =>
        simp only [modifyIdx, List.getElem?_cons_succ, ih]
        by_cases hji : j' = i' <;> simp [hji]

theorem findIdxQ_none_iff (p : α → Bool) (l : List α) :
    findIdxQ p l = none ↔ ∀ x ∈ l, p x = false := by
  induction l with
  | nil => simp [findIdxQ]
  | cons x xs ih =>
    by_cases hx : p x <;> simp [findIdxQ, hx, ih]

theorem findIdxQ_some (p : α → Bool) (l : List α) (i : Nat)
    (h : findIdxQ p l = some i) : ∃ x, l[i]? = some x ∧ p x = true := by
  induction l generalizing i with
  | nil => simp [findIdxQ] at h
  | cons x xs ih =>
    by_cases hx : p x
    · simp only [findIdxQ, if_pos hx, Option.some_inj] at h
      subst h
      exact ⟨x, by simp, hx⟩
    · simp only [findIdxQ, if_neg hx] at h
      cases hfi : findIdxQ p xs with
      | none => simp [hfi] at h
      | some j =>
        simp only [hfi, Option.map_some', Option.some_inj] at h
        obtain ⟨y, hy, hpy⟩ := ih j hfi
        exact ⟨y, by simpa [← h] using hy, hpy⟩

theorem findIdxQ_lt_length (p : α → Bool) (l : List α) (i : Nat)
    (h : findIdxQ p l = some i) : i < l.length := by
  obtain ⟨x, hx, -⟩ := findIdxQ_some p l i h
  exact (List.getElem?_eq_some_iff.mp hx).1

theorem find?_of_filter (q p : α → Bool) (l : List α) :
    (l.filter q).find? p = l.find? (fun a => q a && p a) := by
  induction l with
  | nil => simp
  | cons x xs ih =>
    by_cases hq : q x
    · by_cases hp : p x <;> simp [List.filter_cons, hq, List.find?_cons, hp, ih]
    · simp [List.filter_cons, hq, List.find?_cons, ih]

theorem find?_congrP (p q : α → Bool) (l : List α) (h : ∀ a ∈ l, p a = q a) :
    l.find? p = l.find? q := by
  induction l with
  | nil => simp
  | cons x xs ih =>
    have hx := h x (by simp)
    cases hpx : p x with
    | true =>
      have hqx : q x = true := by rw [← hx]; exact hpx
      rw [List.find?_cons_of_pos _ hpx, List.find?_cons_of_pos _ hqx]
    | false =>
      have hqx : q x = false := by rw [← hx]; exact hpx
      rw [List.find?_cons_of_neg _ (by simp [hpx]),
        List.find?_cons_of_neg _ (by simp [hqx])]
      exact ih fun a ha => h a (by simp [ha])

theorem find?_modifyIdx (f : α → α) (p : α → Bool) (i : Nat) (l : List α)
    (h : ∀ x, l[i]? = some x → p x = false ∧ p (f x) = false) :
    (modifyIdx f i l).find? p = l.find? p := by
  induction l generalizing i with
  | nil => simp [modifyIdx]
  | cons x xs ih =>
    cases i with
    | zero =>
      have hx := h x (by simp)
      simp [modifyIdx, List.find?_cons, hx.1, hx.2]
    | succ j =>
      simp only [modifyIdx]
      cases hpx : p x with
      | true =>
        rw [List.find?_cons_of_pos _ hpx, List.find?_cons_of_pos _ hpx]
      | false =>
        rw [List.find?_cons_of_neg _ (by simp [hpx]),
          List.find?_cons_of_neg _ (by simp [hpx])]
        exact ih j fun y hy => h y (by simpa using hy)

theorem mem_of_getElem?_eq (l : List α) (i : Nat) (x : α) (h : l[i]? = some x) :
    x ∈ l := by
  obtain ⟨hlt, heq⟩ := List.getElem?_eq_some_iff.mp h
  subst heq
  exact List.getElem_mem hlt

theorem nodup_getElem?_inj (l : List α) (h : l.Nodup) (i j : Nat) (a : α)
    (hi : l[i]? = some a) (hj : l[j]? = some a) : i = j := by
  have hi' := List.getElem?_eq_some_iff.mp hi
  have hj' := List.getElem?_eq_some_iff.mp hj
  obtain ⟨hilt, hival⟩ := hi'
  obtain ⟨hjlt, hjval⟩ := hj'
  have heq : l.get ⟨i, hilt⟩ = l.get ⟨j, hjlt⟩ := by
    simp [List.get_eq_getElem, hival, hjval]
  have := List.nodup_iff_injective_get.mp h heq
  simpa using congrArg Fin.val this

/-! ### The flattened buffer under tombstoning -/

/-- Tombstone a record view. -/
def setDelE (e : PtEntry) : PtEntry := { e with isDeleted := true }

mutual
theorem flattenNode_length (pfx : List Nat) (n : PtNode) :
    (flattenNode pfx n).length = cntNode n :=
  match n with
  | .mk cps term prob tid del cs => by
    simp [flattenNode, cntNode, flattenArr_length (pfx ++ cps) cs]
    try omega

theorem flattenArr_length (pfx : List Nat) (ns : List PtNode) :
    (flattenArr pfx ns).length = cntArr ns :=
  match ns with
  | [] => by simp [flattenArr, cntArr]
  | n :: rest => by
    simp [flattenArr, cntArr, flattenNode_length pfx n, flattenArr_length pfx rest]
    try omega
end

mutual
theorem flattenNode_mark (pfx : List Nat) (n : PtNode) (i : Nat) :
    flattenNode pfx (markNodeAt n i) = modifyIdx setDelE i (flattenNode pfx n) :=
  match n with
  | .mk cps term prob tid del cs => by
    by_cases h0 : i = 0
    · subst h0
      simp [markNodeAt, flattenNode, modifyIdx, setDelE]
    · obtain ⟨j, rfl⟩ : ∃ j, i = j + 1 := ⟨i - 1, by omega⟩
      simp [markNodeAt, flattenNode, modifyIdx,
        flattenArr_mark (pfx ++ cps) cs j]

theorem flattenArr_mark (pfx : List Nat) (ns : List PtNode) (i : Nat) :
    flattenArr pfx (markArrAt ns i) = modifyIdx setDelE i (flattenArr pfx ns) :=
  match ns with
  | [] => by simp [markArrAt, flattenArr, modifyIdx]
  | n :: rest => by
    by_cases hlt : i < cntNode n
    · rw [show markArrAt (n :: rest) i = markNodeAt n i :: rest from by
        simp [markArrAt, hlt]]
      simp only [flattenArr]
      rw [flattenNode_mark pfx n i,
        modifyIdx_append_left setDelE i _ _ (by rw [flattenNode_length]; omega)]
    · rw [show markArrAt (n :: rest) i = n :: markArrAt rest (i - cntNode n) from by
        simp [markArrAt, hlt]]
      simp only [flattenArr]
      rw [flattenArr_mark pfx rest (i - cntNode n),
        modifyIdx_append_right setDelE i _ _ (by rw [flattenNode_length]; omega),
        flattenNode_length]
end

mutual
theorem markNode_ptSize (n : PtNode) (i : Nat) :
    ptNodeSize (markNodeAt n i) = ptNodeSize n :=
  match n with
  | .mk cps term prob tid del cs => by
    by_cases h0 : i = 0
    · simp [markNodeAt, h0, ptNodeSize]
    · simp only [markNodeAt, if_neg h0, ptNodeSize, markArr_ptSize cs (i - 1)]
      rw [markArr_isEmpty cs (i - 1)]

theorem markArr_ptSize (ns : List PtNode) (i : Nat) :
    ptArrSize (markArrAt ns i) = ptArrSize ns :=
  match ns with
  | [] => by simp [markArrAt]
  | n :: rest => by
    by_cases hlt : i < cntNode n
    · simp [markArrAt, hlt, ptArrSize, markNode_ptSize n i]
    · simp [markArrAt, hlt, ptArrSize, markArr_ptSize rest (i - cntNode n)]

theorem markArr_isEmpty (ns : List PtNode) (i : Nat) :
    (markArrAt ns i).isEmpty = ns.isEmpty :=
  match ns with
  | [] => by simp [markArrAt]
  | n :: rest => by
    by_cases hlt : i < cntNode n <;> simp [markArrAt, hlt]
end

/-! ### Under the structural invariant, every word names at most one record -/

mutual
theorem flattenNode_words (pfx : List Nat) (n : PtNode) (hok : nodeOk n = true) :
    ((flattenNode pfx n).map (·.word)).Nodup ∧
    ∀ wd ∈ (flattenNode pfx n).map (·.word),
      ∃ t, wd = pfx ++ t ∧ t ≠ [] ∧ t.head? = headCp n :=
  match n with
  | .mk cps term prob tid del cs => by
    simp only [nodeOk, Bool.and_eq_true, Bool.not_eq_true'] at hok
    obtain ⟨hcps, hcsok⟩ := hok
    have hcps' : cps ≠ [] := (isEmpty_false_ne cps).mp hcps
    have hrec := flattenArr_words (pfx ++ cps) cs hcsok
    constructor
    · simp only [flattenNode, List.map_cons, List.nodup_cons]
      constructor
      · intro hmem
        obtain ⟨t, ht, htne, -⟩ := hrec.2 _ hmem
        have hlen := congrArg List.length ht
        simp only [List.length_append] at hlen
        cases t with
        | nil => exact htne rfl
        | cons a as => simp at hlen
      · exact hrec.1
    · intro wd hwd
      simp only [flattenNode, List.map_cons, List.mem_cons] at hwd
      rcases hwd with rfl | hwd
      · refine ⟨cps, rfl, hcps', ?_⟩
        simp [headCp, PtNode.codePoints]
      · obtain ⟨t, ht, htne, hth⟩ := hrec.2 _ hwd
        refine ⟨cps ++ t, by rw [ht, List.append_assoc], by simp [hcps'], ?_⟩
        cases cps with
        | nil => exact absurd rfl hcps'
        | cons c cc => simp [headCp, PtNode.codePoints]

theorem flattenArr_words (pfx : List Nat) (ns : List PtNode) (hok : arrOk ns = true) :
    ((flattenArr pfx ns).map (·.word)).Nodup ∧
    ∀ wd ∈ (flattenArr pfx ns).map (·.word),
      ∃ t, wd = pfx ++ t ∧ t ≠ [] ∧ t.head? ∈ ns.map headCp :=
  match ns with
  | [] => ⟨by simp [flattenArr], by simp [flattenArr]⟩
  | n :: rest => by
    simp only [arrOk, Bool.and_eq_true, decide_eq_true_eq] at hok
    obtain ⟨⟨hnok, hnotin⟩, hrestok⟩ := hok
    have hrecN := flattenNode_words pfx n hnok
    have hrecR := flattenArr_words pfx rest hrestok
    constructor
    · simp only [flattenArr, List.map_append]
      refine hrecN.1.append hrecR.1 ?_
      intro wd hwdN hwdR
      obtain ⟨t1, ht1, ht1ne, ht1h⟩ := hrecN.2 _ hwdN
      obtain ⟨t2, ht2, ht2ne, ht2h⟩ := hrecR.2 _ hwdR
      have hteq : t1 = t2 := List.append_cancel_left (ht1 ▸ ht2)
      subst hteq
      rw [ht1h] at ht2h
      exact hnotin ht2h
    · intro wd hwd
      simp only [flattenArr, List.map_append, List.mem_append] at hwd
      rcases hwd with hwd | hwd
      · obtain ⟨t, ht, htne, hth⟩ := hrecN.2 _ hwd
        exact ⟨t, ht, htne, by simp [hth]⟩
      · obtain ⟨t, ht, htne, hth⟩ := hrecR.2 _ hwd
        exact ⟨t, ht, htne, by simp [hth]⟩
end

/-! ### GC preserves exactly the live records and leaves no tombstones -/

mutual
theorem gcNode_live (pfx : List Nat) (n : PtNode) :
    (match gcNode n with
     | some n' => (flattenNode pfx n').filter PtEntry.isLive
     | none => ([] : List PtEntry)) = (flattenNode pfx n).filter PtEntry.isLive :=
  match n with
  | .mk cps term prob tid del cs => by
    have hrec := gcArr_live (pfx ++ cps) cs
    by_cases hlive : term && !del
    · have hterm : term = true := by
        cases term <;> simp_all
      have hdel : del = false := by
        cases del <;> simp_all
      subst hterm
      subst hdel
      rw [show gcNode (PtNode.mk cps true prob tid false cs) =
          some (PtNode.mk cps true prob tid false (gcArr cs)) from by
        simp [gcNode]]
      simp only [flattenNode, List.filter_cons]
      rw [show (PtEntry.mk (pfx ++ cps) true prob tid false).isLive = true from rfl]
      simp only [hrec]
    · have hdead : (PtEntry.mk (pfx ++ cps) term prob tid del).isLive = false := by
        simp only [PtEntry.isLive]
        cases term <;> cases del <;> simp_all
      by_cases hemp : (gcArr cs).isEmpty
      · rw [show gcNode (PtNode.mk cps term prob tid del cs) = none from by
          simp [gcNode, hlive, hemp]]
        have hnil : gcArr cs = [] := by
          cases hg : gcArr cs
          · rfl
          · rw [hg] at hemp
            simp at hemp
        rw [hnil] at hrec
        simp only [flattenNode, List.filter_cons, hdead, ← hrec, flattenArr]
        simp
      · rw [show gcNode (PtNode.mk cps term prob tid del cs) =
            some (PtNode.mk cps false 0 0 false (gcArr cs)) from by
          simp [gcNode, hlive, hemp]]
        simp only [flattenNode, List.filter_cons]
        rw [show (PtEntry.mk (pfx ++ cps) false 0 0 false).isLive = false from rfl]
        simp only [hdead, hrec]
        simp

theorem gcArr_live (pfx : List Nat) (ns : List PtNode) :
    (flattenArr pfx (gcArr ns)).filter PtEntry.isLive =
      (flattenArr pfx ns).filter PtEntry.isLive :=
  match ns with
  | [] => rfl
  | n :: rest => by
    have hrecR := gcArr_live pfx rest
    have hrecN := gcNode_live pfx n
    cases hgn : gcNode n with
    | some n' =>
      rw [hgn] at hrecN
      rw [show gcArr (n :: rest) = n' :: gcArr rest from by simp [gcArr, hgn]]
      simp only [flattenArr, List.filter_append, hrecR]
      rw [show (match some n' with
        | some m => List.filter PtEntry.isLive (flattenNode pfx m)
        | none => ([] : List PtEntry)) =
          List.filter PtEntry.isLive (flattenNode pfx n') from rfl] at hrecN
      rw [hrecN]
    | none =>
      rw [hgn] at hrecN
      rw [show gcArr (n :: rest) = gcArr rest from by simp [gcArr, hgn]]
      rw [show (match (none : Option PtNode) with
        | some m => List.filter PtEntry.isLive (flattenNode pfx m)
        | none => ([] : List PtEntry)) = ([] : List PtEntry) from rfl] at hrecN
      simp only [flattenArr, List.filter_append, ← hrecN, hrecR, List.nil_append]
end

mutual
theorem gcNode_noDel (pfx : List Nat) (n : PtNode) :
    ∀ n' ∈ gcNode n, ∀ e ∈ flattenNode pfx n', e.isDeleted = false :=
  match n with
  | .mk cps term prob tid del cs => by
    intro n' hn' e he
    have hrec := gcArr_noDel (pfx ++ cps) cs
    simp only [gcNode] at hn'
    by_cases hlive : term && !del
    · rw [if_pos hlive] at hn'
      simp only [Option.mem_def, Option.some_inj] at hn'
      subst hn'
      simp only [flattenNode, List.mem_cons] at he
      rcases he with rfl | he
      · rfl
      · exact hrec e he
    · rw [if_neg hlive] at hn'
      by_cases hemp : (gcArr cs).isEmpty
      · simp [hemp] at hn'
      · rw [if_neg hemp] at hn'
        simp only [Option.mem_def, Option.some_inj] at hn'
        subst hn'
        simp only [flattenNode, List.mem_cons] at he
        rcases he with rfl | he
        · rfl
        · exact hrec e he

theorem gcArr_noDel (pfx : List Nat) (ns : List PtNode) :
    ∀ e ∈ flattenArr pfx (gcArr ns), e.isDeleted = false :=
  match ns with
  | [] => by simp [gcArr, flattenArr]
  | n :: rest => by
    intro e he
    have hrecR := gcArr_noDel pfx rest
    cases hgn : gcNode n with
    | some n' =>
      rw [show gcArr (n :: rest) = n' :: gcArr rest from by simp [gcArr, hgn]] at he
      simp only [flattenArr, List.mem_append] at he
      rcases he with he | he
      · exact gcNode_noDel pfx n n' hgn e he
      · exact hrecR e he
    | none =>
      rw [show gcArr (n :: rest) = gcArr rest from by simp [gcArr, hgn]] at he
      exact hrecR e he
end

/-! ### Claim C4 -/

/-- C4: calling addUnigramEntry with the same word and probability twice in
succession yields exactly the same dictionary state as calling it once, and
when the first call succeeded and the capacity refusal does not trigger, the
duplicate insertion succeeds as an in-place update rather than failing. -/
theorem claim_C4_idempotent_add (d : Dict) (w : List Nat) (p : Nat) :
    (addUnigramEntry (addUnigramEntry d w p).2 w p).2 = (addUnigramEntry d w p).2 ∧
    ((addUnigramEntry d w p).1 = true →
      refusesDynamicOperations (addUnigramEntry d w p).2 = false →
      (addUnigramEntry (addUnigramEntry d w p).2 w p).1 = true) := by
  by_cases h1 : d.isCorrupted
  · simp [addUnigramEntry, h1]
  · by_cases h2 : refusesDynamicOperations d
    · simp [addUnigramEntry, h1, h2]
    · by_cases h3 : w.isEmpty
      · simp [addUnigramEntry, h1, h2, h3]
      · have hc : d.isCorrupted = false := by simpa using h1
        have hw : w ≠ [] := by
          cases w with
          | nil => simp at h3
          | cons a as => simp
        have hd1 : addUnigramEntry d w p =
            (true,
             { d with
                 root := (insArr d.root w p d.nextTerminalId).1,
                 nextTerminalId := (insArr d.root w p d.nextTerminalId).2.1,
                 unigramCount := d.unigramCount +
                   (if (insArr d.root w p d.nextTerminalId).2.2 then 1 else 0),
                 iterCache := none }) := by
          simp [addUnigramEntry, h1, h2, h3]
        have hci : (addUnigramEntry d w p).2.isCorrupted = false := by
          rw [hd1]
          exact hc
        have hroot : (addUnigramEntry d w p).2.root =
            (insArr d.root w p d.nextTerminalId).1 := by
          rw [hd1]
        have hnid : (addUnigramEntry d w p).2.nextTerminalId =
            (insArr d.root w p d.nextTerminalId).2.1 := by
          rw [hd1]
        have hiter : (addUnigramEntry d w p).2.iterCache = none := by
          rw [hd1]
        have hsec_refused :
            refusesDynamicOperations (addUnigramEntry d w p).2 = true →
            addUnigramEntry (addUnigramEntry d w p).2 w p =
              (false, (addUnigramEntry d w p).2) := by
          intro h4
          generalize hS : (addUnigramEntry d w p).2 = S at h4 hci ⊢
          simp [addUnigramEntry, hci, h4]
        have hsec_ok :
            refusesDynamicOperations (addUnigramEntry d w p).2 = false →
            addUnigramEntry (addUnigramEntry d w p).2 w p =
              (true, (addUnigramEntry d w p).2) := by
          intro h4
          have hidem := insArr_idem d.root w p d.nextTerminalId
            (insArr d.root w p d.nextTerminalId).2.1 hw
          generalize hS : (addUnigramEntry d w p).2 = S at h4 hci hroot hnid hiter ⊢
          obtain ⟨Sroot, Snid, Sbg, Ssc, Suc, Sbc, Sic, Scor⟩ := S
          simp only at hci hroot hnid hiter
          subst hci hroot hnid hiter
          simp [addUnigramEntry, h3, h4, hidem]
        constructor
        · by_cases h4 : refusesDynamicOperations (addUnigramEntry d w p).2
          · rw [hsec_refused h4]
          · rw [hsec_ok (by simpa using h4)]
        · intro _ h5
          rw [hsec_ok h5]

/-- Witness for C4 at a concrete instance: adding the word "a" twice to the
empty dictionary equals adding it once, and the duplicate add succeeds. -/
theorem claim_C4_witness :
    (addUnigramEntry (addUnigramEntry initialDict [97] 5).2 [97] 5).2 =
      (addUnigramEntry initialDict [97] 5).2 ∧
    (addUnigramEntry (addUnigramEntry initialDict [97] 5).2 [97] 5).1 = true :=
  ⟨(claim_C4_idempotent_add initialDict [97] 5).1,
   (claim_C4_idempotent_add initialDict [97] 5).2 rfl rfl⟩

/-! ### Claim C2 -/

theorem find?_live_filter (l : List PtEntry) (v : List Nat) :
    l.find? (isLiveWordEntry v) =
      (l.filter PtEntry.isLive).find? (fun e => decide (e.word = v)) := by
  rw [find?_of_filter]
  exact find?_congrP _ _ l fun a _ => by
    simp [isLiveWordEntry, Bool.and_comm]

/-- C2: when removeUnigramEntry succeeds on a word of an invariant-satisfying
dictionary, the lookup reports not-found immediately, the word's record is
merely tombstoned — the buffer keeps the same record count and byte size and
still holds the deleted terminal record — and after flushWithGC no tombstone
remains, the word's terminal record is gone from the buffer, and every other
word keeps its live-lookup record (hence its probability) and its bigram
list unchanged. -/
theorem claim_C2_tombstone_then_gc (d : Dict) (w : List Nat)
    (hok : dictOk d = true) (hrem : (removeUnigramEntry d w).1 = true) :
    terminalPosPure (removeUnigramEntry d w).2 w false = NOT_A_DICT_POS ∧
    cntArr (removeUnigramEntry d w).2.root = cntArr d.root ∧
    dictBufSize (removeUnigramEntry d w).2 = dictBufSize d ∧
    (dictEntries (removeUnigramEntry d w).2).any
      (fun e => decide (e.word = w) && e.isTerminal && e.isDeleted) = true ∧
    (dictEntries (flushWithGC (removeUnigramEntry d w).2).2).all
      (fun e => !e.isDeleted) = true ∧
    terminalPosPure (flushWithGC (removeUnigramEntry d w).2).2 w false =
      NOT_A_DICT_POS ∧
    (dictEntries (flushWithGC (removeUnigramEntry d w).2).2).all
      (fun e => !(decide (e.word = w) && e.isTerminal)) = true ∧
    ∀ v : List Nat, v ≠ w →
      findLiveEntry (flushWithGC (removeUnigramEntry d w).2).2 v =
        findLiveEntry d v ∧
      bigramListOfWord (flushWithGC (removeUnigramEntry d w).2).2 v =
        bigramListOfWord d v := by
  by_cases hc : d.isCorrupted
  · simp [removeUnigramEntry, hc] at hrem
  cases hfi : findLiveIdx d w with
  | none => simp [removeUnigramEntry, hc, hfi] at hrem
  | some i =>
  have hd1 : (removeUnigramEntry d w).2 =
      { d with
          root := markArrAt d.root i,
          unigramCount := d.unigramCount - 1,
          iterCache := none } := by
    simp [removeUnigramEntry, hc, hfi]
  obtain ⟨x, hxi, hxp⟩ := findIdxQ_some _ _ i hfi
  have hxp' := hxp
  simp only [isLiveWordEntry, PtEntry.isLive, Bool.and_eq_true, decide_eq_true_eq,
    Bool.not_eq_true'] at hxp'
  obtain ⟨hword, hterm, hdel⟩ := hxp'
  have hNodup := (flattenArr_words [] d.root hok).1
  have hEnt : dictEntries (removeUnigramEntry d w).2 =
      modifyIdx setDelE i (dictEntries d) := by
    rw [hd1]
    exact flattenArr_mark [] d.root i
  have hnone1 : ∀ e ∈ dictEntries (removeUnigramEntry d w).2,
      isLiveWordEntry w e = false := by
    intro e he
    rw [hEnt] at he
    obtain ⟨j, hj⟩ := List.mem_iff_getElem?.mp he
    rw [getElem?_modifyIdx] at hj
    by_cases hji : j = i
    · rw [if_pos hji, hxi] at hj
      simp only [Option.map_some', Option.some_inj] at hj
      subst hj
      simp [isLiveWordEntry, PtEntry.isLive, setDelE]
    · rw [if_neg hji] at hj
      by_contra hcon
      simp only [Bool.not_eq_false] at hcon
      simp only [isLiveWordEntry, Bool.and_eq_true, decide_eq_true_eq] at hcon
      have hwj : ((dictEntries d).map (·.word))[j]? = some w := by
        rw [List.getElem?_map, hj]
        simp [hcon.1]
      have hwi : ((dictEntries d).map (·.word))[i]? = some w := by
        rw [List.getElem?_map, hxi]
        simp [hword]
      exact hji (nodup_getElem?_inj _ hNodup j i w hwj hwi)
  have hfidx1 : findLiveIdx (removeUnigramEntry d w).2 w = none :=
    (findIdxQ_none_iff _ _).mpr hnone1
  have hd2entries : dictEntries (flushWithGC (removeUnigramEntry d w).2).2 =
      flattenArr [] (gcArr (removeUnigramEntry d w).2.root) := rfl
  have hd2live : (dictEntries (flushWithGC (removeUnigramEntry d w).2).2).filter
        PtEntry.isLive =
      (dictEntries (removeUnigramEntry d w).2).filter PtEntry.isLive := by
    rw [hd2entries]
    exact gcArr_live [] (removeUnigramEntry d w).2.root
  have hnone2 : ∀ e ∈ dictEntries (flushWithGC (removeUnigramEntry d w).2).2,
      isLiveWordEntry w e = false := by
    intro e he
    by_contra hcon
    simp only [Bool.not_eq_false] at hcon
    have hlivee : e.isLive = true := by
      simp only [isLiveWordEntry, Bool.and_eq_true] at hcon
      exact hcon.2
    have hmemf : e ∈ (dictEntries (flushWithGC (removeUnigramEntry d w).2).2).filter
        PtEntry.isLive := List.mem_filter.mpr ⟨he, hlivee⟩
    rw [hd2live] at hmemf
    have := hnone1 e (List.mem_filter.mp hmemf).1
    rw [hcon] at this
    exact Bool.true_eq_false.mp this
  have hnodel2 : ∀ e ∈ dictEntries (flushWithGC (removeUnigramEntry d w).2).2,
      e.isDeleted = false := by
    intro e he
    rw [hd2entries] at he
    exact gcArr_noDel [] (removeUnigramEntry d w).2.root e he
  refine ⟨?_, ?_, ?_, ?_, ?_, ?_, ?_, ?_⟩
  · simp [terminalPosPure, hfidx1]
  · rw [hd1]
    show cntArr (markArrAt d.root i) = cntArr d.root
    rw [← flattenArr_length ([] : List Nat), flattenArr_mark, modifyIdx_length,
      flattenArr_length]
  · rw [hd1]
    simp [dictBufSize, markArr_ptSize]
  · have hx1 : (dictEntries (removeUnigramEntry d w).2)[i]? = some (setDelE x) := by
      rw [hEnt, getElem?_modifyIdx, if_pos rfl, hxi]
      rfl
    refine List.any_eq_true.mpr ⟨setDelE x, mem_of_getElem?_eq _ i _ hx1, ?_⟩
    simp [setDelE, hword, hterm]
  · refine List.all_eq_true.mpr ?_
    intro e he
    simp [hnodel2 e he]
  · have hfidx2 : findLiveIdx (flushWithGC (removeUnigramEntry d w).2).2 w = none :=
      (findIdxQ_none_iff _ _).mpr hnone2
    simp [terminalPosPure, hfidx2]
  · refine List.all_eq_true.mpr ?_
    intro e he
    have hnd := hnodel2 e he
    have hnl := hnone2 e he
    simp only [isLiveWordEntry, PtEntry.isLive, hnd, Bool.not_false,
      Bool.and_true, Bool.and_eq_false_iff] at hnl
    rcases hnl with hnl | hnl
    · simp [hnl]
    · simp [hnl]
  · intro v hv
    have hfind1 : findLiveEntry (removeUnigramEntry d w).2 v = findLiveEntry d v := by
      unfold findLiveEntry
      rw [hEnt]
      apply find?_modifyIdx
      intro y hy
      rw [hxi] at hy
      simp only [Option.some_inj] at hy
      subst hy
      constructor
      · simp only [isLiveWordEntry, hword]
        simp [Ne.symm hv]
      · simp [isLiveWordEntry, PtEntry.isLive, setDelE]
    have hfind2 : findLiveEntry (flushWithGC (removeUnigramEntry d w).2).2 v =
        findLiveEntry (removeUnigramEntry d w).2 v := by
      unfold findLiveEntry
      rw [find?_live_filter, find?_live_filter, hd2live]
    have hfind := hfind2.trans hfind1
    refine ⟨hfind, ?_⟩
    have htid : lookupTid (flushWithGC (removeUnigramEntry d w).2).2 v =
        lookupTid d v := by
      unfold lookupTid
      rw [hfind]
    cases hlt : lookupTid d v with
    | none => simp [bigramListOfWord, htid, hlt]
    | some t =>
      have hbg1 : (removeUnigramEntry d w).2.bigrams = d.bigrams := by
        rw [hd1]
      obtain ⟨y, hyfind⟩ : ∃ y, findLiveEntry d v = some y := by
        unfold lookupTid at hlt
        cases hfd : findLiveEntry d v with
        | none => rw [hfd] at hlt; simp at hlt
        | some y => exact ⟨y, rfl⟩
      have hyt : y.terminalId = t := by
        unfold lookupTid at hlt
        rw [hyfind] at hlt
        simpa using hlt
      have hyfind2 : findLiveEntry (flushWithGC (removeUnigramEntry d w).2).2 v =
          some y := by
        rw [hfind, hyfind]
      have hymem : y ∈ dictEntries (flushWithGC (removeUnigramEntry d w).2).2 :=
        List.mem_of_find?_eq_some hyfind2
      have hyp : isLiveWordEntry v y = true := List.find?_some hyfind2
      have hylive : y.isLive = true := by
        simp only [isLiveWordEntry, Bool.and_eq_true] at hyp
        exact hyp.2
      have htin : t ∈ ((flattenArr [] (gcArr (removeUnigramEntry d w).2.root)).filter
          PtEntry.isLive).map (·.terminalId) := by
        rw [← hyt]
        exact List.mem_map_of_mem _ (List.mem_filter.mpr ⟨hymem, hylive⟩)
      have hbg2 : (flushWithGC (removeUnigramEntry d w).2).2.bigrams =
          ((removeUnigramEntry d w).2.bigrams).filter
            (fun e => (!e.isDeleted) &&
              decide (e.src ∈ ((flattenArr [] (gcArr (removeUnigramEntry d w).2.root)).filter
                PtEntry.isLive).map (·.terminalId))) := rfl
      have htid2 : lookupTid (flushWithGC (removeUnigramEntry d w).2).2 v = some t := by
        rw [htid, hlt]
      simp only [bigramListOfWord, htid2, hlt]
      unfold liveBigramsOfTid
      rw [hbg2, hbg1]
      congr 1
      rw [List.filter_filter]
      apply List.filter_congr
      intro e _
      by_cases hdel : e.isDeleted
      · simp [hdel]
      · by_cases hsrc : e.src = t
        · simp [hdel, hsrc, htin]
        · simp [hdel, hsrc]

/-- Witness for C2: in the dictionary holding "cat", "car", "cart", removing
"car" succeeds and the lookup of "car" then reports the not-found
sentinel. -/
theorem claim_C2_witness :
    dictOk (applyOps [DictOp.addU [99,97,116] 120, DictOp.addU [99,97,114] 100,
      DictOp.addU [99,97,114,116] 110] initialDict) = true ∧
    (removeUnigramEntry (applyOps [DictOp.addU [99,97,116] 120,
      DictOp.addU [99,97,114] 100, DictOp.addU [99,97,114,116] 110] initialDict)
      [99,97,114]).1 = true ∧
    terminalPosPure (removeUnigramEntry (applyOps [DictOp.addU [99,97,116] 120,
      DictOp.addU [99,97,114] 100, DictOp.addU [99,97,114,116] 110] initialDict)
      [99,97,114]).2 [99,97,114] false = NOT_A_DICT_POS :=
  ⟨rfl, rfl,
   (claim_C2_tombstone_then_gc
     (applyOps [DictOp.addU [99,97,116] 120, DictOp.addU [99,97,114] 100,
       DictOp.addU [99,97,114,116] 110] initialDict) [99,97,114] rfl rfl).1⟩

/-! ### Claim C3 -/

/-- States reached by iterating flushWithGC. -/
def gcIter : Nat → Dict → Dict
  | 0, d => d
  | k + 1, d => gcIter k (flushWithGC d).2

theorem flushWithGC_liveFilter (d : Dict) :
    (dictEntries (flushWithGC d).2).filter PtEntry.isLive =
      (dictEntries d).filter PtEntry.isLive :=
  gcArr_live [] d.root

theorem flushWithGC_findLive (d : Dict) (v : List Nat) :
    findLiveEntry (flushWithGC d).2 v = findLiveEntry d v := by
  unfold findLiveEntry
  rw [find?_live_filter, find?_live_filter, flushWithGC_liveFilter]

theorem flushWithGC_liveWords (d : Dict) :
    liveWords (flushWithGC d).2 = liveWords d := by
  unfold liveWords
  rw [flushWithGC_liveFilter]

theorem flushWithGC_liveTids (d : Dict) :
    liveTids (flushWithGC d).2 = liveTids d := by
  unfold liveTids
  rw [flushWithGC_liveFilter]

theorem gcIter_findLive (k : Nat) (d : Dict) (v : List Nat) :
    findLiveEntry (gcIter k d) v = findLiveEntry d v := by
  induction k generalizing d with
  | zero => rfl
  | succ k ih =>
    rw [show gcIter (k + 1) d = gcIter k (flushWithGC d).2 from rfl, ih,
      flushWithGC_findLive]

/-- C3: across any number of flushWithGC compactions every word keeps its
terminal identifier (the live-lookup record, hence the identifier it carries,
is unchanged, and so are the lists of live words and identifiers), and after
a compaction every surviving bigram and shortcut record is keyed by the
identifier of a still-live terminal while every live terminal's bigram list
and shortcut list are carried over unchanged — so identifier-keyed
cross-references of both side tables stay valid without being rewritten. -/
theorem claim_C3_stable_terminal_ids (d : Dict) (k : Nat) :
    (∀ w : List Nat, lookupTid (gcIter k d) w = lookupTid d w) ∧
    liveWords (gcIter k d) = liveWords d ∧
    liveTids (gcIter k d) = liveTids d ∧
    (∀ e ∈ (flushWithGC d).2.bigrams, e.src ∈ liveTids (flushWithGC d).2) ∧
    (∀ t ∈ liveTids d,
      liveBigramsOfTid (flushWithGC d).2 t = liveBigramsOfTid d t) ∧
    (∀ e ∈ (flushWithGC d).2.shortcuts, e.src ∈ liveTids (flushWithGC d).2) ∧
    (∀ t ∈ liveTids d,
      liveShortcutsOfTid (flushWithGC d).2 t = liveShortcutsOfTid d t) := by
  have hWT : liveWords (gcIter k d) = liveWords d ∧
      liveTids (gcIter k d) = liveTids d := by
    induction k generalizing d with
    | zero => exact ⟨rfl, rfl⟩
    | succ k ih =>
      rw [show gcIter (k + 1) d = gcIter k (flushWithGC d).2 from rfl]
      refine ⟨(ih (flushWithGC d).2).1.trans (flushWithGC_liveWords d),
        (ih (flushWithGC d).2).2.trans (flushWithGC_liveTids d)⟩
  refine ⟨?_, hWT.1, hWT.2, ?_, ?_, ?_, ?_⟩
  · intro w
    unfold lookupTid
    rw [gcIter_findLive]
  · intro e he
    have hbg2 : (flushWithGC d).2.bigrams =
        d.bigrams.filter
          (fun e => (!e.isDeleted) &&
            decide (e.src ∈ ((flattenArr [] (gcArr d.root)).filter
              PtEntry.isLive).map (·.terminalId))) := rfl
    rw [hbg2] at he
    have := (List.mem_filter.mp he).2
    simp only [Bool.and_eq_true, decide_eq_true_eq] at this
    exact this.2
  · intro t ht
    have htin : t ∈ ((flattenArr [] (gcArr d.root)).filter
        PtEntry.isLive).map (·.terminalId) := by
      have : t ∈ liveTids (flushWithGC d).2 := by
        rw [flushWithGC_liveTids]
        exact ht
      exact this
    have hbg2 : (flushWithGC d).2.bigrams =
        d.bigrams.filter
          (fun e => (!e.isDeleted) &&
            decide (e.src ∈ ((flattenArr [] (gcArr d.root)).filter
              PtEntry.isLive).map (·.terminalId))) := rfl
    unfold liveBigramsOfTid
    rw [hbg2]
    congr 1
    rw [List.filter_filter]
    apply List.filter_congr
    intro e _
    by_cases hdel : e.isDeleted
    · simp [hdel]
    · by_cases hsrc : e.src = t
      · simp [hdel, hsrc, htin]
      · simp [hdel, hsrc]
  · intro e he
    have hsc2 : (flushWithGC d).2.shortcuts =
        d.shortcuts.filter
          (fun e => (!e.isDeleted) &&
            decide (e.src ∈ ((flattenArr [] (gcArr d.root)).filter
              PtEntry.isLive).map (·.terminalId))) := rfl
    rw [hsc2] at he
    have := (List.mem_filter.mp he).2
    simp only [Bool.and_eq_true, decide_eq_true_eq] at this
    exact this.2
  · intro t ht
    have htin : t ∈ ((flattenArr [] (gcArr d.root)).filter
        PtEntry.isLive).map (·.terminalId) := by
      have : t ∈ liveTids (flushWithGC d).2 := by
        rw [flushWithGC_liveTids]
        exact ht
      exact this
    have hsc2 : (flushWithGC d).2.shortcuts =
        d.shortcuts.filter
          (fun e => (!e.isDeleted) &&
            decide (e.src ∈ ((flattenArr [] (gcArr d.root)).filter
              PtEntry.isLive).map (·.terminalId))) := rfl
    unfold liveShortcutsOfTid
    rw [hsc2]
    rw [List.filter_filter]
    apply List.filter_congr
    intro e _
    by_cases hdel : e.isDeleted
    · simp [hdel]
    · by_cases hsrc : e.src = t
      · simp [hdel, hsrc, htin]
      · simp [hdel, hsrc]

/-- Witness for C3: in the "cat"/"car"/"cart" dictionary, two compactions
leave the terminal identifier of "cart" unchanged. -/
theorem claim_C3_witness :
    lookupTid (gcIter 2 (applyOps [DictOp.addU [99,97,116] 120,
      DictOp.addU [99,97,114] 100, DictOp.addU [99,97,114,116] 110] initialDict))
      [99,97,114,116] =
    lookupTid (applyOps [DictOp.addU [99,97,116] 120, DictOp.addU [99,97,114] 100,
      DictOp.addU [99,97,114,116] 110] initialDict) [99,97,114,116] :=
  (claim_C3_stable_terminal_ids
    (applyOps [DictOp.addU [99,97,116] 120, DictOp.addU [99,97,114] 100,
      DictOp.addU [99,97,114,116] 110] initialDict) 2).1 [99,97,114,116]

/-! ### Claim C7 -/

theorem findLiveIdx_none_iff (d : Dict) (v : List Nat) :
    findLiveIdx d v = none ↔ v ∉ liveWords d := by
  rw [findLiveIdx, findIdxQ_none_iff]
  unfold liveWords
  constructor
  · intro h hmem
    obtain ⟨e, hef, hew⟩ := List.mem_map.mp hmem
    obtain ⟨he, hlive⟩ := List.mem_filter.mp hef
    have := h e he
    rw [show isLiveWordEntry v e = true from by
      simp [isLiveWordEntry, hew, hlive]] at this
    exact Bool.true_eq_false.mp this
  · intro h e he
    by_contra hcon
    simp only [Bool.not_eq_false, isLiveWordEntry, Bool.and_eq_true,
      decide_eq_true_eq] at hcon
    exact h (List.mem_map.mpr ⟨e, List.mem_filter.mpr ⟨he, hcon.2⟩, hcon.1⟩)

/-- C7: getTerminalPtNodePositionOfWord returns the negative not-found
sentinel exactly when the word is absent from the live trie; with
forceLowerCaseSearch set the sentinel comes back exactly when both the exact
word and its lower-cased code points are absent, so a word stored only in
lower case is still found (a nonnegative position is returned). -/
theorem claim_C7_lookup_sentinel (d : Dict) (w : List Nat) :
    (terminalPosPure d w false < 0 ↔ w ∉ liveWords d) ∧
    (terminalPosPure d w true < 0 ↔
      (w ∉ liveWords d ∧ w.map toLowerCp ∉ liveWords d)) ∧
    (w ∉ liveWords d → w.map toLowerCp ∈ liveWords d →
      0 ≤ terminalPosPure d w true) := by
  have hsent : NOT_A_DICT_POS < 0 := by decide
  cases hfi : findLiveIdx d w with
  | some i =>
    have hin : w ∈ liveWords d := by
      by_contra hcon
      rw [(findLiveIdx_none_iff d w).mpr hcon] at hfi
      cases hfi
    refine ⟨?_, ?_, ?_⟩
    · simp only [terminalPosPure, hfi]
      constructor
      · intro hlt
        omega
      · intro hmem
        exact absurd hin hmem
    · simp only [terminalPosPure, hfi]
      constructor
      · intro hlt
        omega
      · intro hmem
        exact absurd hin hmem.1
    · intro hmem
      exact absurd hin hmem
  | none =>
    have hout : w ∉ liveWords d := (findLiveIdx_none_iff d w).mp hfi
    cases hfl : findLiveIdx d (w.map toLowerCp) with
    | some j =>
      have hinL : w.map toLowerCp ∈ liveWords d := by
        by_contra hcon
        rw [(findLiveIdx_none_iff d _).mpr hcon] at hfl
        cases hfl
      refine ⟨?_, ?_, ?_⟩
      · simp [terminalPosPure, hfi, hout, hsent]
      · simp only [terminalPosPure, hfi, hfl, if_true]
        constructor
        · intro hlt
          simp at hlt
          omega
        · intro hmem
          exact absurd hinL hmem.2
      · intro _ _
        simp only [terminalPosPure, hfi, hfl, if_true]
        simp
    | none =>
      have houtL : w.map toLowerCp ∉ liveWords d := (findLiveIdx_none_iff d _).mp hfl
      refine ⟨?_, ?_, ?_⟩
      · simp [terminalPosPure, hfi, hout, hsent]
      · simp [terminalPosPure, hfi, hfl, hout, houtL, hsent]
      · intro _ hmem
        exact absurd hmem houtL

/-- Witness for C7: with only the lower-case "cat" stored, looking up "Cat"
with forceLowerCaseSearch finds a nonnegative position. -/
theorem claim_C7_witness :
    [67,97,116] ∉ liveWords (applyOps [DictOp.addU [99,97,116] 120] initialDict) ∧
    [67,97,116].map toLowerCp ∈
      liveWords (applyOps [DictOp.addU [99,97,116] 120] initialDict) ∧
    0 ≤ terminalPosPure (applyOps [DictOp.addU [99,97,116] 120] initialDict)
      [67,97,116] true :=
  ⟨by decide, by decide,
   (claim_C7_lookup_sentinel (applyOps [DictOp.addU [99,97,116] 120] initialDict)
     [67,97,116]).2.2 (by decide) (by decide)⟩

/-! ### Claim C5 -/

/-- C5: the corruption flag is sticky — no facade operation ever clears it —
and once it is set every mutating operation (addUnigramEntry,
removeUnigramEntry, addNgramEntry, removeNgramEntry) returns failure with
the dictionary state unchanged. -/
theorem claim_C5_sticky_corruption (d : Dict) (w w0 w1 : List Nat) (p : Nat)
    (h : d.isCorrupted = true) :
    addUnigramEntry d w p = (false, d) ∧
    removeUnigramEntry d w = (false, d) ∧
    addNgramEntry d w0 w1 p = (false, d) ∧
    removeNgramEntry d w0 w1 = (false, d) ∧
    ∀ op : DictOp, (applyOp op d).isCorrupted = true := by
  refine ⟨by simp [addUnigramEntry, h], by simp [removeUnigramEntry, h],
    by simp [addNgramEntry, h], by simp [removeNgramEntry, h], ?_⟩
  intro op
  cases op with
  | addU w p => simp [applyOp, addUnigramEntry, h]
  | removeU w => simp [applyOp, removeUnigramEntry, h]
  | addB w0 w1 p => simp [applyOp, addNgramEntry, h]
  | removeB w0 w1 => simp [applyOp, removeNgramEntry, h]
  | flushGC => simpa [applyOp, flushWithGC] using h
  | flushPlain => simpa [applyOp, flush] using h
  | lookupW w flc =>
    simp [applyOp, getTerminalPtNodePositionOfWord, readScan, h]
  | nextWord t =>
    show (getNextWordAndNextToken d t).2.2.isCorrupted = true
    unfold getNextWordAndNextToken
    split
    · cases hxx : (liveWords d)[t]? <;> simpa [hxx] using h
    · cases hxx : (d.iterCache.getD (liveWords d))[t]? <;> simpa [hxx] using h

/-- Witness for C5: on a corrupted instance, adding the word "a" is refused
and the state is unchanged. -/
theorem claim_C5_witness :
    addUnigramEntry (Dict.mk [] 0 [] [] 0 0 none true) [97] 5 =
      (false, Dict.mk [] 0 [] [] 0 0 none true) ∧
    (applyOp DictOp.flushGC (Dict.mk [] 0 [] [] 0 0 none true)).isCorrupted = true :=
  ⟨(claim_C5_sticky_corruption (Dict.mk [] 0 [] [] 0 0 none true)
      [97] [97] [98] 5 rfl).1,
   (claim_C5_sticky_corruption (Dict.mk [] 0 [] [] 0 0 none true)
      [97] [97] [98] 5 rfl).2.2.2.2 DictOp.flushGC⟩

/-! ### Claim C6 -/

/-- C6: when the buffer is within the refusal margin of the maximum size and
above the minimum refusal size, addUnigramEntry and addNgramEntry fail with
no write at all, the refusal does not touch the corruption flag, and no
operation other than flushWithGC changes the buffer size — so the additions
stay refused until a compacting flush shrinks the buffer. -/
theorem claim_C6_capacity_refusal (d : Dict) (w w0 w1 : List Nat) (p : Nat)
    (h : refusesDynamicOperations d = true) :
    addUnigramEntry d w p = (false, d) ∧
    addNgramEntry d w0 w1 p = (false, d) ∧
    (addUnigramEntry d w p).2.isCorrupted = d.isCorrupted ∧
    (∀ op : DictOp, op ≠ DictOp.flushGC →
      dictBufSize (applyOp op d) = dictBufSize d) ∧
    (∀ op : DictOp, op ≠ DictOp.flushGC →
      refusesDynamicOperations (applyOp op d) = true) := by
  have hadd : addUnigramEntry d w p = (false, d) := by
    unfold addUnigramEntry
    by_cases hc : d.isCorrupted <;> simp [hc, h]
  have haddb : addNgramEntry d w0 w1 p = (false, d) := by
    unfold addNgramEntry
    by_cases hc : d.isCorrupted <;> simp [hc, h]
  have hsize : ∀ op : DictOp, op ≠ DictOp.flushGC →
      dictBufSize (applyOp op d) = dictBufSize d := by
    intro op hop
    cases op with
    | addU w p =>
      unfold applyOp addUnigramEntry
      by_cases hc : d.isCorrupted <;> simp [hc, h]
    | removeU w =>
      unfold applyOp removeUnigramEntry
      by_cases hc : d.isCorrupted
      · simp [hc]
      · cases hfi : findLiveIdx d w with
        | none => simp [hc, hfi]
        | some i => simp [hc, hfi, dictBufSize, markArr_ptSize]
    | addB w0 w1 p =>
      unfold applyOp addNgramEntry
      by_cases hc : d.isCorrupted <;> simp [hc, h]
    | removeB w0 w1 =>
      unfold applyOp removeNgramEntry
      by_cases hc : d.isCorrupted
      · simp [hc]
      · cases ht0 : lookupTid d w0 with
        | none => simp [hc, ht0]
        | some t0 =>
          cases ht1 : lookupTid d w1 with
          | none => simp [hc, ht0, ht1]
          | some t1 =>
            simp only [hc, Bool.false_eq_true, if_false, ht0, ht1]
            split
            · simp [dictBufSize]
            · simp [dictBufSize]
    | flushGC => exact absurd rfl hop
    | flushPlain => rfl
    | lookupW w flc => rfl
    | nextWord t =>
      show dictBufSize (getNextWordAndNextToken d t).2.2 = dictBufSize d
      unfold getNextWordAndNextToken
      split
      · cases hxx : (liveWords d)[t]? <;> simp [hxx, dictBufSize]
      · cases hxx : (d.iterCache.getD (liveWords d))[t]? <;> simp [hxx, dictBufSize]
  refine ⟨hadd, haddb, by rw [hadd], hsize, ?_⟩
  intro op hop
  have hs := hsize op hop
  unfold refusesDynamicOperations at h ⊢
  rw [hs]
  exact h

/-! ### Claim C8 -/

/-- C8: with no bigram entry the blend returns the unigram probability
unchanged; with a bigram entry the result is at least the bigram probability
and monotone in it (the bigram evidence dominates) yet never falls below the
floor derived from the unigram value (its half). -/
theorem claim_C8_probability_blend (u b : Int) :
    getProbability u NOT_A_PROBABILITY = u ∧
    (b ≠ NOT_A_PROBABILITY →
      u / 2 ≤ getProbability u b ∧
      b ≤ getProbability u b ∧
      ∀ b' : Int, b ≤ b' → b' ≠ NOT_A_PROBABILITY →
        getProbability u b ≤ getProbability u b') := by
  refine ⟨by simp [getProbability], ?_⟩
  intro hb
  refine ⟨by simp [getProbability, hb], by simp [getProbability, hb], ?_⟩
  intro b' hbb hb'
  simp only [getProbability, if_neg hb, if_neg hb']
  exact max_le_max hbb le_rfl

/-- Witness for C8 at unigram 10 and bigram 3: the blend is at least both the
floor 5 and the bigram evidence 3. -/
theorem claim_C8_witness :
    getProbability 10 NOT_A_PROBABILITY = 10 ∧
    (10 : Int) / 2 ≤ getProbability 10 3 ∧ (3 : Int) ≤ getProbability 10 3 :=
  ⟨(claim_C8_probability_blend 10 3).1,
   ((claim_C8_probability_blend 10 3).2 (by decide)).1,
   ((claim_C8_probability_blend 10 3).2 (by decide)).2.1⟩

/-- Witness for C6: a dictionary whose single 200-code-point node drives the
buffer size past the refusal boundary refuses a further addition and is left
unchanged by it. -/
theorem claim_C6_witness :
    refusesDynamicOperations (Dict.mk [PtNode.mk (List.replicate 200 97)
      true 5 0 false []] 1 [] [] 1 0 none false) = true ∧
    addUnigramEntry (Dict.mk [PtNode.mk (List.replicate 200 97)
      true 5 0 false []] 1 [] [] 1 0 none false) [98] 7 =
      (false, Dict.mk [PtNode.mk (List.replicate 200 97)
        true 5 0 false []] 1 [] [] 1 0 none false) :=
  ⟨by decide,
   (claim_C6_capacity_refusal (Dict.mk [PtNode.mk (List.replicate 200 97)
      true 5 0 false []] 1 [] [] 1 0 none false) [98] [98] [99] 7 (by decide)).1⟩

/-! ### Claim C9 -/

theorem runIter_cached (L : List (List Nat)) :
    ∀ (fuel t : Nat) (d : Dict), d.iterCache = some L → t ≠ 0 →
      L.length - t < fuel → runIter fuel d t = (L.drop t, 0) := by
  intro fuel
  induction fuel with
  | zero =>
    intro t d hC ht hf
    omega
  | succ fuel ih =>
    intro t d hC ht hf
    unfold runIter getNextWordAndNextToken
    rw [if_neg ht, hC]
    simp only [Option.getD_some]
    cases hLt : L[t]? with
    | none =>
      have hge : L.length ≤ t := by
        by_contra hcon
        rw [List.getElem?_eq_getElem (by omega)] at hLt
        cases hLt
      simp [List.drop_eq_nil_of_le hge]
    | some wd =>
      have htl : t < L.length := (List.getElem?_eq_some_iff.mp hLt).1
      have hwd : L[t] = wd := by
        rw [List.getElem?_eq_getElem htl] at hLt
        simpa using hLt
      by_cases hnext : t + 1 < L.length
      · have hne : ¬(t + 1 = 0) := by omega
        simp only [if_pos hnext, if_neg hne]
        rw [ih (t + 1) _ rfl (by omega) (by omega)]
        rw [List.drop_eq_getElem_cons htl, hwd]
      · have hlen : t + 1 = L.length := by omega
        simp only [if_neg hnext, if_pos rfl]
        rw [List.drop_eq_getElem_cons htl, hwd,
          List.drop_eq_nil_of_le (by omega)]
        simp

/-- C9: driving getNextWordAndNextToken from token 0 with enough calls, with
no mutation in between, produces exactly the list of live words — every live
terminal exactly once, in the materialized stable order — and finishes with
the sentinel token 0; each call hands over a single word, so the result does
not depend on how the caller splits the iteration. -/
theorem claim_C9_iteration_completeness (d : Dict) (fuel : Nat)
    (hfuel : (liveWords d).length < fuel) :
    runIter fuel d 0 = (liveWords d, 0) := by
  obtain ⟨fuel, rfl⟩ : ∃ f, fuel = f + 1 := ⟨fuel - 1, by omega⟩
  unfold runIter getNextWordAndNextToken
  rw [if_pos rfl]
  cases hL0 : (liveWords d)[0]? with
  | none =>
    have hnil : liveWords d = [] := by
      cases hl : liveWords d with
      | nil => rfl
      | cons a as =>
        rw [hl] at hL0
        simp at hL0
    simp [hnil]
  | some w0 =>
    have h0 : 0 < (liveWords d).length := (List.getElem?_eq_some_iff.mp hL0).1
    have hw0 : (liveWords d)[0] = w0 := by
      rw [List.getElem?_eq_getElem h0] at hL0
      simpa using hL0
    by_cases h1 : 0 + 1 < (liveWords d).length
    · have hne : ¬(0 + 1 = 0) := by omega
      simp only [hL0, if_pos h1, if_neg hne]
      rw [runIter_cached (liveWords d) fuel (0 + 1)
        { d with iterCache := some (liveWords d) } rfl (by omega) (by omega)]
      have hcons : w0 :: List.drop (0 + 1) (liveWords d) = liveWords d := by
        rw [← hw0, ← List.drop_eq_getElem_cons h0, List.drop_zero]
      simpa using hcons
    · have hlen : (liveWords d).length = 1 := by omega
      simp only [hL0, if_neg h1, if_pos rfl]
      have hsing : liveWords d = [w0] := by
        obtain ⟨a, ha⟩ := List.length_eq_one.mp hlen
        rw [ha] at hL0
        simp only [List.getElem?_cons_zero, Option.some_inj] at hL0
        rw [ha, hL0]
      rw [hsing]
      simp
  
/-- Witness for C9: iterating the "cat"/"car" dictionary from token 0 yields
exactly its two live words and the sentinel token. -/
theorem claim_C9_witness :
    (liveWords (applyOps [DictOp.addU [99,97,116] 120,
      DictOp.addU [99,97,114] 100] initialDict)).length < 3 ∧
    runIter 3 (applyOps [DictOp.addU [99,97,116] 120,
      DictOp.addU [99,97,114] 100] initialDict) 0 =
      (liveWords (applyOps [DictOp.addU [99,97,116] 120,
        DictOp.addU [99,97,114] 100] initialDict), 0) :=
  ⟨by decide,
   claim_C9_iteration_completeness (applyOps [DictOp.addU [99,97,116] 120,
     DictOp.addU [99,97,114] 100] initialDict) 3 (by decide)⟩

/-! ### Claim C10 -/

/-- C10: every const read operation — child expansion, code-point
reconstruction, word lookup, per-node probability, n-gram iteration, word
property, GC-need query — leaves the trie, the bigram table, the counters
and the iteration cache unchanged; only the mutable corruption flag may
change, and only from false to true when the scan meets a record failing the
codec checks: a set flag is never cleared, and the flag is set only when it
already was set or a malformed record is present. -/
theorem claim_C10_const_reads_frame (d : Dict) (w : List Nat) (flc : Bool)
    (pos prevPos maxCount : Nat) (minds : Bool) :
    (getTerminalPtNodePositionOfWord d w flc).2 = readScan d ∧
    (getCodePointsAndProbabilityAndReturnCodePointCount d pos maxCount).2 =
      readScan d ∧
    (createAndGetAllChildDicNodes d pos).2 = readScan d ∧
    (getProbabilityOfPtNode d prevPos pos).2 = readScan d ∧
    (iterateNgramEntries d prevPos).2 = readScan d ∧
    (getWordProperty d w).2 = readScan d ∧
    (needsToRunGC d minds).2 = readScan d ∧
    (readScan d).root = d.root ∧
    (readScan d).bigrams = d.bigrams ∧
    (readScan d).shortcuts = d.shortcuts ∧
    (readScan d).nextTerminalId = d.nextTerminalId ∧
    (readScan d).unigramCount = d.unigramCount ∧
    (readScan d).bigramCount = d.bigramCount ∧
    (readScan d).iterCache = d.iterCache ∧
    (d.isCorrupted = true → (readScan d).isCorrupted = true) ∧
    ((readScan d).isCorrupted = true →
      d.isCorrupted = true ∨ malformedArr d.root = true) ∧
    (malformedArr d.root = true → (readScan d).isCorrupted = true) := by
  refine ⟨rfl, rfl, rfl, rfl, rfl, rfl, rfl, rfl, rfl, rfl, rfl, rfl, rfl,
    rfl, ?_, ?_, ?_⟩
  · intro h
    simp [readScan, h]
  · intro h
    simp only [readScan, Bool.or_eq_true] at h
    exact h
  · intro h
    simp [readScan, h]

/-- Witness for C10: a lookup on an uncorrupted instance holding one
malformed (empty-edge) record sets the corruption flag — the false-to-true
transition — and a lookup on a corrupted instance keeps it set. -/
theorem claim_C10_witness :
    (getTerminalPtNodePositionOfWord
      (Dict.mk [PtNode.mk [] true 5 0 false []] 1 [] [] 1 0 none false)
      [97] false).2.isCorrupted = true ∧
    (getTerminalPtNodePositionOfWord
      (Dict.mk [] 0 [] [] 0 0 none true) [97] false).2.isCorrupted = true := by
  constructor
  · have h := (claim_C10_const_reads_frame
      (Dict.mk [PtNode.mk [] true 5 0 false []] 1 [] [] 1 0 none false)
      [97] false 0 0 0 false).2.2.2.2.2.2.2.2.2.2.2.2.2.2.2.2 rfl
    rw [(claim_C10_const_reads_frame
      (Dict.mk [PtNode.mk [] true 5 0 false []] 1 [] [] 1 0 none false)
      [97] false 0 0 0 false).1]
    exact h
  · have h := (claim_C10_const_reads_frame
      (Dict.mk [] 0 [] [] 0 0 none true) [97] false 0 0 0 false).2.2.2.2.2.2.2.2.2.2.2.2.2.2.1 rfl
    rw [(claim_C10_const_reads_frame
      (Dict.mk [] 0 [] [] 0 0 none true) [97] false 0 0 0 false).1]
    exact h


end Ver4
